/-
Verification of the entity-resolution and evidence-fusion engine of the
biotech-project pipeline, as a shallow embedding in Lean 4.

The embedded code comes from:
  * scripts/01_bgc_parse/unify_bgc.py   (UnionFind, reciprocal_overlap, merge_overlaps)
  * scripts/04_linking/link_bgc_ms_refs.py (estimate_mass, the three scorers, build_mapping)
  * scripts/06_ranking/rank_candidates.py  (aggregate_evidence, enrich_with_bgc_feature_links,
                                            compute_scores)

Modelling conventions:
  * pandas numeric cells are modelled as `ℚ`; a cell that may be NaN/None is `Option ℚ`;
    string cells are `String`, with the empty string standing for the persisted empty cell.
  * Python's stable `sorted` is modelled with `List.insertionSort` (a stable sort), and so
    is the multi-key `sort_values([SampleID, Start, End])` of `merge_overlaps` (the claims
    about it use only order-insensitive consequences).  The ranker's single-key
    `sort_values("AggregateScore", ascending=False)` runs pandas' default quicksort, which
    pandas documents as not stable, so it is modelled relationally: any permutation of the
    rows that is descending in AggregateScore is a possible output.
  * Python `round(x, 4)` is modelled as rational rounding to 4 decimal places.
  * The recursive `UnionFind.find` is modelled with explicit fuel; the fuel is shown to be
    irrelevant (the real root is reached) whenever it is at least the number of registered
    indices, which is how `merge_overlaps` instantiates it.
-/
import Mathlib

/- Core `Rat` arithmetic is `@[irreducible]`, which blocks kernel evaluation of
concrete examples; restore default reducibility locally so `decide` can
evaluate the embedded programs on concrete inputs. -/
attribute [local semireducible] Rat.add Rat.mul Rat.sub Rat.inv

namespace BiotechSpec

/-! ## Part 1: the Locus Union-Find (`class UnionFind` of unify_bgc.py)

The Python object holds a mutable `parent : Dict[int, int]`.  We model the state as a
total function `ℕ → ℕ` that is the identity off the registered index set `V`.
`find` recursively reads the parent, compresses the path, and returns the root;
`union a b` attaches `b`'s root under `a`'s root.  -/

namespace UF

/-- Python `self.find(node)`: returns the root of `node` and the compressed parent map.
Python recursion `self.parent[node] = self.find(parent)` is modelled with fuel;
`findC` both returns the root and performs the path-compression state update. -/
def findC : ℕ → (ℕ → ℕ) → ℕ → ℕ × (ℕ → ℕ)
  | 0, p, x => (x, p)
  | fuel + 1, p, x =>
    if p x = x then (x, p)
    else
      let res := findC fuel p (p x)
      (res.1, Function.update res.2 x res.1)

/-- Python `self.union(a, b)`: find both roots (each find compresses), then attach
`b`'s root under `a`'s root when they differ. -/
def union (fuel : ℕ) (p : ℕ → ℕ) (a b : ℕ) : ℕ → ℕ :=
  let fa := findC fuel p a
  let fb := findC fuel fa.2 b
  if fa.1 = fb.1 then fb.2 else Function.update fb.2 fb.1 fa.1

/-- Run a sequence of `union` calls, left to right, from parent map `p`. -/
def runUnions (fuel : ℕ) (us : List (ℕ × ℕ)) (p : ℕ → ℕ) : ℕ → ℕ :=
  us.foldl (fun q ab => union fuel q ab.1 ab.2) p

/-- A pure (non-compressing) root computation with fuel, used as the canonical
root function in specifications. -/
def rootD : ℕ → (ℕ → ℕ) → ℕ → ℕ
  | 0, _, x => x
  | fuel + 1, p, x => if p x = x then x else rootD fuel p (p x)

/-- Node `r` is a fixed point of the parent map. -/
def IsRoot (p : ℕ → ℕ) (r : ℕ) : Prop := p r = r

/-- Node `y` is reachable from `x` by iterating the parent map. -/
def Reaches (p : ℕ → ℕ) (x y : ℕ) : Prop := ∃ k, p^[k] x = y

/-- Node `r` is the root of `x`'s tree. -/
def RootOf (p : ℕ → ℕ) (x r : ℕ) : Prop := Reaches p x r ∧ IsRoot p r

/-- Nodes `x` and `y` lie in the same tree (the same disjoint set). -/
def Same (p : ℕ → ℕ) (x y : ℕ) : Prop := ∃ r, RootOf p x r ∧ RootOf p y r

/-- The invariant of the union-find state over the registered index set `V`. -/
structure Inv (V : Finset ℕ) (p : ℕ → ℕ) : Prop where
  maps : ∀ x ∈ V, p x ∈ V
  outside : ∀ x ∉ V, p x = x
  acyc : ∃ h : ℕ → ℕ, ∀ x, p x ≠ x → h (p x) < h x

theorem reaches_refl (p : ℕ → ℕ) (x : ℕ) : Reaches p x x := ⟨0, rfl⟩

theorem reaches_head (p : ℕ → ℕ) (x : ℕ) : Reaches p x (p x) := ⟨1, rfl⟩

theorem reaches_trans {p : ℕ → ℕ} {x y z : ℕ} (h1 : Reaches p x y) (h2 : Reaches p y z) :
    Reaches p x z := by
  obtain ⟨k1, hk1⟩ := h1
  obtain ⟨k2, hk2⟩ := h2
  exact ⟨k2 + k1, by rw [Function.iterate_add_apply, hk1, hk2]⟩

theorem isRoot_iterate {p : ℕ → ℕ} {r : ℕ} (h : IsRoot p r) (k : ℕ) : p^[k] r = r :=
  Function.iterate_fixed h k

theorem rootOf_unique {p : ℕ → ℕ} {x r1 r2 : ℕ}
    (h1 : RootOf p x r1) (h2 : RootOf p x r2) : r1 = r2 := by
  obtain ⟨⟨k1, hk1⟩, hr1⟩ := h1
  obtain ⟨⟨k2, hk2⟩, hr2⟩ := h2
  rcases le_total k1 k2 with h | h
  · have : p^[k2] x = r1 := by
      have := Function.iterate_add_apply p (k2 - k1) k1 x
      rw [Nat.sub_add_cancel h] at this
      rw [this, hk1, isRoot_iterate hr1]
    rw [← this, hk2]
  · have : p^[k1] x = r2 := by
      have := Function.iterate_add_apply p (k1 - k2) k2 x
      rw [Nat.sub_add_cancel h] at this
      rw [this, hk2, isRoot_iterate hr2]
    rw [← hk1, this]

theorem rootOf_step {p : ℕ → ℕ} {x r : ℕ} (hx : p x ≠ x) :
    RootOf p x r ↔ RootOf p (p x) r := by
  constructor
  · rintro ⟨⟨k, hk⟩, hr⟩
    cases k with
    | zero =>
      exfalso
      apply hx
      have hxr : x = r := hk
      rw [hxr]
      exact hr
    | succ k => exact ⟨⟨k, by rw [← Function.iterate_succ_apply]; exact hk⟩, hr⟩
  · rintro ⟨⟨k, hk⟩, hr⟩
    exact ⟨⟨k + 1, by rw [Function.iterate_succ_apply]; exact hk⟩, hr⟩

theorem rootOf_self {p : ℕ → ℕ} {r : ℕ} (h : IsRoot p r) : RootOf p r r :=
  ⟨reaches_refl p r, h⟩

theorem rootOf_root {p : ℕ → ℕ} {x r : ℕ} (h : RootOf p x r) : RootOf p r r :=
  rootOf_self h.2

theorem same_of_rootOf {p : ℕ → ℕ} {x r : ℕ} (h : RootOf p x r) : Same p x r :=
  ⟨r, h, rootOf_root h⟩

/-- Along any reachability chain, an acyclicity measure does not increase. -/
theorem measure_mono {p h : ℕ → ℕ} (hd : ∀ x, p x ≠ x → h (p x) < h x)
    {x y : ℕ} (hr : Reaches p x y) : h y ≤ h x := by
  obtain ⟨k, hk⟩ := hr
  subst hk
  induction k with
  | zero => exact le_rfl
  | succ k ih =>
    rw [Function.iterate_succ_apply']
    by_cases hfix : p (p^[k] x) = p^[k] x
    · rw [hfix]; exact ih
    · exact le_trans (le_of_lt (hd _ hfix)) ih

/-- Every node has a root (using the acyclicity measure). -/
theorem rootOf_exists {p : ℕ → ℕ} (hac : ∃ h : ℕ → ℕ, ∀ x, p x ≠ x → h (p x) < h x)
    (x : ℕ) : ∃ r, RootOf p x r := by
  obtain ⟨h, hd⟩ := hac
  suffices H : ∀ n x, h x ≤ n → ∃ r, RootOf p x r from H (h x) x le_rfl
  intro n
  induction n with
  | zero =>
    intro x hn
    by_cases hx : p x = x
    · exact ⟨x, rootOf_self hx⟩
    · exact absurd (Nat.lt_of_lt_of_le (hd x hx) hn) (Nat.not_lt_zero _)
  | succ n ih =>
    intro x hn
    by_cases hx : p x = x
    · exact ⟨x, rootOf_self hx⟩
    · obtain ⟨r, hr⟩ := ih (p x) (by have := hd x hx; omega)
      exact ⟨r, (rootOf_step hx).mpr hr⟩

theorem reaches_mem {V : Finset ℕ} {p : ℕ → ℕ} (hInv : Inv V p) {x y : ℕ}
    (hx : x ∈ V) (hr : Reaches p x y) : y ∈ V := by
  obtain ⟨k, hk⟩ := hr
  induction k generalizing y with
  | zero => exact hk ▸ hx
  | succ k ih =>
    rw [Function.iterate_succ_apply'] at hk
    exact hk ▸ hInv.maps _ (ih rfl)

theorem rootOf_outside {V : Finset ℕ} {p : ℕ → ℕ} (hInv : Inv V p) {x : ℕ}
    (hx : x ∉ V) : RootOf p x x := rootOf_self (hInv.outside x hx)

/-- Pigeonhole: under the invariant, the root of `x ∈ V` is reached in fewer
than `V.card` steps (the nodes along a minimal chain are pairwise distinct
members of `V`). -/
theorem reaches_root_bounded {V : Finset ℕ} {p : ℕ → ℕ} (hInv : Inv V p) {x : ℕ}
    (hx : x ∈ V) : ∃ k, k + 1 ≤ V.card ∧ IsRoot p (p^[k] x) := by
  obtain ⟨h, hd⟩ := hInv.acyc
  have hex : ∃ k, p (p^[k] x) = p^[k] x := by
    obtain ⟨r, ⟨k, hk⟩, hr⟩ := rootOf_exists ⟨h, hd⟩ x
    exact ⟨k, by rw [hk]; exact hr⟩
  set K := Nat.find hex with hK
  have hKroot : p (p^[K] x) = p^[K] x := Nat.find_spec hex
  have hmin : ∀ i < K, p (p^[i] x) ≠ p^[i] x := fun i hi => Nat.find_min hex hi
  refine ⟨K, ?_, hKroot⟩
  -- the chain x, p x, ..., p^[K] x is strictly decreasing in the measure h
  have hstep : ∀ i < K, h (p^[i + 1] x) < h (p^[i] x) := by
    intro i hi
    rw [Function.iterate_succ_apply']
    exact hd _ (hmin i hi)
  have hchain : ∀ j ≤ K, ∀ i < j, h (p^[j] x) < h (p^[i] x) := by
    intro j hj
    induction j with
    | zero => omega
    | succ j ih =>
      intro i hi
      have hj' : j ≤ K := Nat.le_of_succ_le hj
      have hlt : h (p^[j + 1] x) < h (p^[j] x) := hstep j (Nat.lt_of_succ_le hj)
      rcases Nat.lt_or_ge i j with hij | hij
      · exact hlt.trans (ih hj' i hij)
      · have : i = j := by omega
        exact this ▸ hlt
  have hinj : Set.InjOn (fun i => p^[i] x) ↑(Finset.range (K + 1)) := by
    intro i hi j hj hij
    simp only [Finset.coe_range, Set.mem_Iio] at hi hj
    by_contra hne
    rcases Nat.lt_or_ge i j with hlt | hge
    · exact absurd (congrArg h hij) (Nat.ne_of_gt (hchain j (by omega) i hlt))
    · have hlt : j < i := by omega
      exact absurd (congrArg h hij) (Nat.ne_of_lt (hchain i (by omega) j hlt))
  have hmaps : ∀ i ∈ Finset.range (K + 1), p^[i] x ∈ V := by
    intro i _
    exact reaches_mem hInv hx ⟨i, rfl⟩
  have := Finset.card_le_card_of_injOn (fun i => p^[i] x) hmaps hinj
  simpa using this

/-- If some root of `x` is reached within `fuel` steps, `rootD fuel p x` finds it. -/
theorem rootD_of_chain :
    ∀ (fuel : ℕ) (p : ℕ → ℕ) (x k : ℕ), k ≤ fuel → IsRoot p (p^[k] x) →
      RootOf p x (rootD fuel p x) := by
  intro fuel
  induction fuel with
  | zero =>
    intro p x k hk hroot
    interval_cases k
    exact rootOf_self hroot
  | succ fuel ih =>
    intro p x k hk hroot
    rw [rootD]
    by_cases hfix : p x = x
    · simp only [hfix, if_true]
      exact rootOf_self hfix
    · simp only [hfix, if_false]
      cases k with
      | zero =>
        exfalso
        exact hfix hroot
      | succ k =>
        rw [Function.iterate_succ_apply] at hroot
        exact (rootOf_step hfix).mpr (ih p (p x) k (by omega) hroot)

/-- Under the invariant, `rootD fuel p x` is a genuine root of `x` whenever the
fuel dominates the registered index count. -/
theorem rootD_spec {V : Finset ℕ} {p : ℕ → ℕ} (hInv : Inv V p) {fuel : ℕ}
    (hfuel : V.card ≤ fuel) (x : ℕ) : RootOf p x (rootD fuel p x) := by
  by_cases hx : x ∈ V
  · obtain ⟨k, hk, hroot⟩ := reaches_root_bounded hInv hx
    exact rootD_of_chain fuel p x k (by omega) hroot
  · have hfix := hInv.outside x hx
    exact rootD_of_chain fuel p x 0 (Nat.zero_le _) hfix

theorem rootD_eq_of_rootOf {V : Finset ℕ} {p : ℕ → ℕ} (hInv : Inv V p) {fuel : ℕ}
    (hfuel : V.card ≤ fuel) {x r : ℕ} (h : RootOf p x r) : rootD fuel p x = r :=
  rootOf_unique (rootD_spec hInv hfuel x) h

theorem same_iff_rootD {V : Finset ℕ} {p : ℕ → ℕ} (hInv : Inv V p) {fuel : ℕ}
    (hfuel : V.card ≤ fuel) (x y : ℕ) :
    Same p x y ↔ rootD fuel p x = rootD fuel p y := by
  constructor
  · rintro ⟨r, hx, hy⟩
    rw [rootD_eq_of_rootOf hInv hfuel hx, rootD_eq_of_rootOf hInv hfuel hy]
  · intro h
    exact ⟨rootD fuel p y, h ▸ rootD_spec hInv hfuel x, rootD_spec hInv hfuel y⟩

theorem same_symm {p : ℕ → ℕ} {x y : ℕ} (h : Same p x y) : Same p y x := by
  obtain ⟨r, hx, hy⟩ := h
  exact ⟨r, hy, hx⟩

theorem same_trans {p : ℕ → ℕ} {x y z : ℕ} (h1 : Same p x y) (h2 : Same p y z) :
    Same p x z := by
  obtain ⟨r, hx, hy⟩ := h1
  obtain ⟨r', hy', hz⟩ := h2
  exact ⟨r, hx, rootOf_unique hy' hy ▸ hz⟩

theorem rootOf_of_same {p : ℕ → ℕ} {x a ra : ℕ} (h : Same p x a) (hra : RootOf p a ra) :
    RootOf p x ra := by
  obtain ⟨r, hx, ha⟩ := h
  exact rootOf_unique ha hra ▸ hx

/-- Redirecting a non-root node `x` straight to its own root `r` (path compression)
changes no node's root. -/
theorem update_root_iff {p h : ℕ → ℕ} (hd : ∀ z, p z ≠ z → h (p z) < h z)
    {x r : ℕ} (hroot : RootOf p x r) (hx : p x ≠ x) :
    ∀ y r', RootOf (Function.update p x r) y r' ↔ RootOf p y r' := by
  have hrne : r ≠ x := by
    intro he
    exact hx (by rw [← he]; exact hroot.2)
  have hp'x : Function.update p x r x = r := Function.update_same x r p
  have hp'ne : ∀ z, z ≠ x → Function.update p x r z = p z := fun z hz =>
    Function.update_noteq hz r p
  have hupx : RootOf (Function.update p x r) x r := by
    refine ⟨⟨1, by rw [Function.iterate_one]; exact hp'x⟩, ?_⟩
    show Function.update p x r r = r
    rw [hp'ne r hrne]
    exact hroot.2
  suffices H : ∀ n y, h y ≤ n → ∀ r',
      (RootOf (Function.update p x r) y r' ↔ RootOf p y r') by
    intro y r'
    exact H (h y) y le_rfl r'
  intro n
  induction n with
  | zero =>
    intro y hy r'
    by_cases hyx : y = x
    · subst hyx
      exact absurd (Nat.lt_of_lt_of_le (hd y hx) hy) (Nat.not_lt_zero _)
    · by_cases hfix : p y = y
      · have hq : RootOf (Function.update p x r) y y :=
          rootOf_self (by show Function.update p x r y = y; rw [hp'ne y hyx]; exact hfix)

        constructor
        · intro h1
          rw [rootOf_unique h1 hq]
          exact rootOf_self hfix
        · intro h1
          rw [rootOf_unique h1 (rootOf_self hfix)]
          exact hq
      · exact absurd (Nat.lt_of_lt_of_le (hd y hfix) hy) (Nat.not_lt_zero _)
  | succ n ih =>
    intro y hy r'
    by_cases hyx : y = x
    · subst hyx
      constructor
      · intro h1
        rw [rootOf_unique h1 hupx]
        exact hroot
      · intro h1
        rw [rootOf_unique h1 hroot]
        exact hupx
    · by_cases hfix : p y = y
      · have hq : RootOf (Function.update p x r) y y :=
          rootOf_self (by show Function.update p x r y = y; rw [hp'ne y hyx]; exact hfix)
        constructor
        · intro h1
          rw [rootOf_unique h1 hq]
          exact rootOf_self hfix
        · intro h1
          rw [rootOf_unique h1 (rootOf_self hfix)]
          exact hq
      · have hp'y : Function.update p x r y = p y := hp'ne y hyx
        have hfix' : Function.update p x r y ≠ y := by rw [hp'y]; exact hfix
        rw [rootOf_step hfix', hp'y, rootOf_step hfix]
        exact ih (p y) (by have := hd y hfix; omega) r'

/-- The `findC` specification: it returns the true root of `x`, preserves the
invariant, and path compression changes no node's root. -/
theorem findC_spec {V : Finset ℕ} :
    ∀ (fuel : ℕ) (p : ℕ → ℕ) (x : ℕ), Inv V p → x ∈ V →
      (∃ k, k ≤ fuel ∧ IsRoot p (p^[k] x)) →
      RootOf p x (findC fuel p x).1 ∧ Inv V (findC fuel p x).2 ∧
      (∀ y r, RootOf (findC fuel p x).2 y r ↔ RootOf p y r) := by
  intro fuel
  induction fuel with
  | zero =>
    intro p x hInv hx hk
    obtain ⟨k, hk0, hroot⟩ := hk
    interval_cases k
    exact ⟨rootOf_self hroot, hInv, fun _ _ => Iff.rfl⟩
  | succ fuel ih =>
    intro p x hInv hx hk
    by_cases hfix : p x = x
    · have hred : findC (fuel + 1) p x = (x, p) := by rw [findC, if_pos hfix]
      rw [hred]
      exact ⟨rootOf_self hfix, hInv, fun _ _ => Iff.rfl⟩
    · obtain ⟨k, hk1, hroot⟩ := hk
      have hk' : ∃ k, k ≤ fuel ∧ IsRoot p (p^[k] (p x)) := by
        cases k with
        | zero => exact absurd hroot hfix
        | succ k =>
          rw [Function.iterate_succ_apply] at hroot
          exact ⟨k, by omega, hroot⟩
      obtain ⟨hroot1, hInv1, hiff1⟩ := ih p (p x) hInv (hInv.maps x hx) hk'
      set res := findC fuel p (p x) with hres
      have hred : findC (fuel + 1) p x = (res.1, Function.update res.2 x res.1) := by
        rw [findC, if_neg hfix]
      -- the root of `x` under the original and the compressed map
      have hrx : RootOf p x res.1 := (rootOf_step hfix).mpr hroot1
      have hrx1 : RootOf res.2 x res.1 := (hiff1 x res.1).mpr hrx
      have hfix1 : res.2 x ≠ x := by
        intro he
        have : RootOf res.2 x x := rootOf_self he
        have := rootOf_unique hrx1 this
        rw [this] at hrx
        exact hfix hrx.2
      obtain ⟨h1, hd1⟩ := hInv1.acyc
      have hInvNew : Inv V (Function.update res.2 x res.1) := by
        refine ⟨?_, ?_, ?_⟩
        · intro z hz
          by_cases hzx : z = x
          · subst hzx
            simp only [Function.update_same]
            exact reaches_mem hInv hz hrx.1
          · rw [Function.update_noteq hzx]
            exact hInv1.maps z hz
        · intro z hz
          have hzx : z ≠ x := fun he => hz (he ▸ hx)
          rw [Function.update_noteq hzx]
          exact hInv1.outside z hz
        · refine ⟨h1, fun z hz => ?_⟩
          by_cases hzx : z = x
          · subst hzx
            rw [Function.update_same] at hz ⊢
            have hstep : h1 (res.2 z) < h1 z := hd1 z hfix1
            have hreach : Reaches res.2 (res.2 z) res.1 :=
              ((rootOf_step hfix1).mp hrx1).1
            exact Nat.lt_of_le_of_lt (measure_mono hd1 hreach) hstep
          · rw [Function.update_noteq hzx] at hz ⊢
            exact hd1 z hz
      have hiffNew : ∀ y r, RootOf (Function.update res.2 x res.1) y r ↔ RootOf p y r := by
        intro y r
        rw [update_root_iff hd1 hrx1 hfix1 y r]
        exact hiff1 y r
      rw [hred]
      exact ⟨hrx, hInvNew, hiffNew⟩

/-- Attaching root `rb` under root `ra` (`self.parent[root_b] = root_a`):
the root of every node either stays, or moves from `rb` to `ra`. -/
theorem union_root_iff {p h : ℕ → ℕ} (hd : ∀ z, p z ≠ z → h (p z) < h z)
    {ra rb : ℕ} (hra : IsRoot p ra) (hrb : IsRoot p rb) (hne : ra ≠ rb) :
    ∀ y r', RootOf (Function.update p rb ra) y r' ↔
      ((RootOf p y r' ∧ r' ≠ rb) ∨ (RootOf p y rb ∧ r' = ra)) := by
  have hp'rb : Function.update p rb ra rb = ra := Function.update_same rb ra p
  have hp'ne : ∀ z, z ≠ rb → Function.update p rb ra z = p z := fun z hz =>
    Function.update_noteq hz ra p
  have hup : RootOf (Function.update p rb ra) rb ra := by
    refine ⟨⟨1, by rw [Function.iterate_one]; exact hp'rb⟩, ?_⟩
    show Function.update p rb ra ra = ra
    rw [hp'ne ra hne]
    exact hra
  suffices H : ∀ n y, h y ≤ n → ∀ r',
      (RootOf (Function.update p rb ra) y r' ↔
        ((RootOf p y r' ∧ r' ≠ rb) ∨ (RootOf p y rb ∧ r' = ra))) by
    intro y r'
    exact H (h y) y le_rfl r'
  have hcase_rb : ∀ r', (RootOf (Function.update p rb ra) rb r' ↔
      ((RootOf p rb r' ∧ r' ≠ rb) ∨ (RootOf p rb rb ∧ r' = ra))) := by
    intro r'
    constructor
    · intro h1
      right
      exact ⟨rootOf_self hrb, rootOf_unique h1 hup⟩
    · rintro (⟨h1, h2⟩ | ⟨_, h2⟩)
      · exact absurd (rootOf_unique h1 (rootOf_self hrb)) h2
      · rw [h2]
        exact hup
  have hcase_root : ∀ y, y ≠ rb → p y = y → ∀ r',
      (RootOf (Function.update p rb ra) y r' ↔
        ((RootOf p y r' ∧ r' ≠ rb) ∨ (RootOf p y rb ∧ r' = ra))) := by
    intro y hyrb hfix r'
    have hq : RootOf (Function.update p rb ra) y y :=
      rootOf_self (by show Function.update p rb ra y = y; rw [hp'ne y hyrb]; exact hfix)
    constructor
    · intro h1
      left
      rw [rootOf_unique h1 hq]
      exact ⟨rootOf_self hfix, hyrb⟩
    · rintro (⟨h1, _⟩ | ⟨h1, h2⟩)
      · rw [rootOf_unique h1 (rootOf_self hfix)]
        exact hq
      · exact absurd (rootOf_unique h1 (rootOf_self hfix)).symm hyrb
  intro n
  induction n with
  | zero =>
    intro y hy r'
    by_cases hyrb : y = rb
    · subst hyrb
      exact hcase_rb r'
    · by_cases hfix : p y = y
      · exact hcase_root y hyrb hfix r'
      · exact absurd (Nat.lt_of_lt_of_le (hd y hfix) hy) (Nat.not_lt_zero _)
  | succ n ih =>
    intro y hy r'
    by_cases hyrb : y = rb
    · subst hyrb
      exact hcase_rb r'
    · by_cases hfix : p y = y
      · exact hcase_root y hyrb hfix r'
      · have hp'y : Function.update p rb ra y = p y := hp'ne y hyrb
        have hfix' : Function.update p rb ra y ≠ y := by rw [hp'y]; exact hfix
        have hs : ∀ q : ℕ, RootOf p y q ↔ RootOf p (p y) q := fun q => rootOf_step hfix
        rw [rootOf_step hfix', hp'y, ih (p y) (by have := hd y hfix; omega) r',
          hs r', hs rb]

/-- Attaching one root under another preserves acyclicity. -/
theorem union_update_acyc {p h : ℕ → ℕ} (hd : ∀ z, p z ≠ z → h (p z) < h z)
    {ra rb : ℕ} (hra : IsRoot p ra) (hrb : IsRoot p rb) (hne : ra ≠ rb) :
    ∃ h' : ℕ → ℕ, ∀ z, Function.update p rb ra z ≠ z →
      h' (Function.update p rb ra z) < h' z := by
  classical
  refine ⟨fun z => h z + (if RootOf p z rb then h ra + 1 else 0), ?_⟩
  intro z hz
  by_cases hzrb : z = rb
  · rw [hzrb, Function.update_same]
    show h ra + (if RootOf p ra rb then h ra + 1 else 0) <
      h rb + (if RootOf p rb rb then h ra + 1 else 0)
    have h1 : ¬RootOf p ra rb := fun hc =>
      hne (rootOf_unique (rootOf_self hra) hc)
    have h2 : RootOf p rb rb := rootOf_self hrb
    rw [if_neg h1, if_pos h2]
    omega
  · rw [Function.update_noteq hzrb] at hz ⊢
    show h (p z) + (if RootOf p (p z) rb then h ra + 1 else 0) <
      h z + (if RootOf p z rb then h ra + 1 else 0)
    have hiff : RootOf p z rb ↔ RootOf p (p z) rb := rootOf_step hz
    by_cases hzr : RootOf p z rb
    · rw [if_pos hzr, if_pos (hiff.mp hzr)]
      have := hd z hz
      omega
    · rw [if_neg hzr, if_neg (fun hc => hzr (hiff.mpr hc))]
      have := hd z hz
      omega

/-- The `union` specification: the invariant is preserved and the partition is
coarsened by exactly the merge of `a`'s and `b`'s sets. -/
theorem union_spec {V : Finset ℕ} {p : ℕ → ℕ} (hInv : Inv V p) {fuel : ℕ}
    (hfuel : V.card ≤ fuel) {a b : ℕ} (ha : a ∈ V) (hb : b ∈ V) :
    Inv V (union fuel p a b) ∧
    ∀ x y, Same (union fuel p a b) x y ↔
      (Same p x y ∨ (Same p x a ∧ Same p y b) ∨ (Same p x b ∧ Same p y a)) := by
  have hchain_a : ∃ k, k ≤ fuel ∧ IsRoot p (p^[k] a) := by
    obtain ⟨k, hk, hroot⟩ := reaches_root_bounded hInv ha
    exact ⟨k, by omega, hroot⟩
  obtain ⟨hra, hInv1, hiff1⟩ := findC_spec fuel p a hInv ha hchain_a
  set fa := findC fuel p a with hfa
  have hchain_b : ∃ k, k ≤ fuel ∧ IsRoot fa.2 (fa.2^[k] b) := by
    obtain ⟨k, hk, hroot⟩ := reaches_root_bounded hInv1 hb
    exact ⟨k, by omega, hroot⟩
  obtain ⟨hrb1, hInv2, hiff2⟩ := findC_spec fuel fa.2 b hInv1 hb hchain_b
  set fb := findC fuel fa.2 b with hfb
  have hiffc : ∀ y r, RootOf fb.2 y r ↔ RootOf p y r := fun y r =>
    (hiff2 y r).trans (hiff1 y r)
  have hrb : RootOf p b fb.1 := (hiff1 b fb.1).mp hrb1
  have hsame2 : ∀ x y, Same fb.2 x y ↔ Same p x y := by
    intro x y
    constructor
    · rintro ⟨r, h1, h2⟩
      exact ⟨r, (hiffc x r).mp h1, (hiffc y r).mp h2⟩
    · rintro ⟨r, h1, h2⟩
      exact ⟨r, (hiffc x r).mpr h1, (hiffc y r).mpr h2⟩
  have hredU : union fuel p a b =
      (if fa.1 = fb.1 then fb.2 else Function.update fb.2 fb.1 fa.1) := by
    rw [union]
  by_cases heq : fa.1 = fb.1
  · rw [hredU, if_pos heq]
    have hab : Same p a b := ⟨fa.1, hra, heq ▸ hrb⟩
    refine ⟨hInv2, fun x y => (hsame2 x y).trans ?_⟩
    constructor
    · intro h1
      exact Or.inl h1
    · rintro (h1 | ⟨h1, h2⟩ | ⟨h1, h2⟩)
      · exact h1
      · exact same_trans (same_trans h1 hab) (same_symm h2)
      · exact same_trans (same_trans h1 (same_symm hab)) (same_symm h2)
  · rw [hredU, if_neg heq]
    -- roots of `a` and `b` under the doubly-compressed map
    have hra2 : RootOf fb.2 a fa.1 := (hiffc a fa.1).mpr hra
    have hrb2 : RootOf fb.2 b fb.1 := (hiffc b fb.1).mpr hrb
    have hisra : IsRoot fb.2 fa.1 := (rootOf_root hra2).2
    have hisrb : IsRoot fb.2 fb.1 := (rootOf_root hrb2).2
    have hnaV : fa.1 ∈ V := reaches_mem hInv ha hra.1
    have hnbV : fb.1 ∈ V := reaches_mem hInv hb hrb.1
    obtain ⟨h2, hd2⟩ := hInv2.acyc
    have hneq : fa.1 ≠ fb.1 := heq
    have hur := union_root_iff hd2 hisra hisrb hneq
    refine ⟨?_, ?_⟩
    · refine ⟨?_, ?_, ?_⟩
      · intro z hz
        by_cases hzrb : z = fb.1
        · subst hzrb
          rw [Function.update_same]
          exact hnaV
        · rw [Function.update_noteq hzrb]
          exact hInv2.maps z hz
      · intro z hz
        have hzrb : z ≠ fb.1 := fun he => hz (he ▸ hnbV)
        rw [Function.update_noteq hzrb]
        exact hInv2.outside z hz
      · exact union_update_acyc hd2 hisra hisrb hneq
    · intro x y
      constructor
      · rintro ⟨r', h1, h2⟩
        rcases (hur x r').mp h1 with ⟨hx1, hx2⟩ | ⟨hx1, hx2⟩ <;>
          rcases (hur y r').mp h2 with ⟨hy1, hy2⟩ | ⟨hy1, hy2⟩
        · exact Or.inl ((hsame2 x y).mp ⟨r', hx1, hy1⟩)
        · -- x keeps root r' = fa.1? no: y moved, so r' = fa.1 and x has root fa.1
          subst hy2
          refine Or.inr (Or.inl ⟨?_, ?_⟩)
          · exact (hsame2 x a).mp ⟨fa.1, hx1, hra2⟩
          · exact (hsame2 y b).mp ⟨fb.1, hy1, hrb2⟩
        · subst hx2
          refine Or.inr (Or.inr ⟨?_, ?_⟩)
          · exact (hsame2 x b).mp ⟨fb.1, hx1, hrb2⟩
          · exact (hsame2 y a).mp ⟨fa.1, hy1, hra2⟩
        · exact Or.inl ((hsame2 x y).mp ⟨fb.1, hx1, hy1⟩)
      · intro hcase
        have hx_of : ∀ z, Same p z a → RootOf (Function.update fb.2 fb.1 fa.1) z fa.1 := by
          intro z hz
          have : RootOf fb.2 z fa.1 := rootOf_of_same ((hsame2 z a).mpr hz) hra2
          exact (hur z fa.1).mpr (Or.inl ⟨this, hneq⟩)
        have hy_of : ∀ z, Same p z b → RootOf (Function.update fb.2 fb.1 fa.1) z fa.1 := by
          intro z hz
          have : RootOf fb.2 z fb.1 := rootOf_of_same ((hsame2 z b).mpr hz) hrb2
          exact (hur z fa.1).mpr (Or.inr ⟨this, rfl⟩)
        rcases hcase with h1 | ⟨h1, h2⟩ | ⟨h1, h2⟩
        · obtain ⟨r, hxr, hyr⟩ := (hsame2 _ _).mpr h1
          by_cases hrrb : r = fb.1
          · subst hrrb
            exact ⟨fa.1, (hur _ _).mpr (Or.inr ⟨hxr, rfl⟩),
              (hur _ _).mpr (Or.inr ⟨hyr, rfl⟩)⟩
          · exact ⟨r, (hur _ _).mpr (Or.inl ⟨hxr, hrrb⟩),
              (hur _ _).mpr (Or.inl ⟨hyr, hrrb⟩)⟩
        · exact ⟨fa.1, hx_of x h1, hy_of y h2⟩
        · exact ⟨fa.1, hy_of x h1, hx_of y h2⟩

theorem same_id_iff (x y : ℕ) : Same id x y ↔ x = y := by
  constructor
  · rintro ⟨r, ⟨⟨k1, hk1⟩, _⟩, ⟨⟨k2, hk2⟩, _⟩⟩
    simp only [Function.iterate_id, id_eq] at hk1 hk2
    rw [hk1, hk2]
  · rintro rfl
    exact ⟨x, rootOf_self rfl, rootOf_self rfl⟩

theorem inv_id (V : Finset ℕ) : Inv V id := by
  refine ⟨fun x hx => hx, fun x _ => rfl, ⟨fun _ => 0, fun x hx => absurd rfl hx⟩⟩

/-- Extending an equivalence by one merged pair, expressed through `EqvGen`. -/
theorem eqvGen_cons_iff {E : ℕ → ℕ → Prop} (hE : Equivalence E)
    (ab : ℕ × ℕ) (rest : List (ℕ × ℕ)) (x y : ℕ) :
    Relation.EqvGen
      (fun u v => (E u v ∨ (E u ab.1 ∧ E v ab.2) ∨ (E u ab.2 ∧ E v ab.1)) ∨
        (u, v) ∈ rest) x y ↔
    Relation.EqvGen (fun u v => E u v ∨ (u, v) ∈ ab :: rest) x y := by
  constructor
  · intro h
    induction h with
    | rel u v huv =>
      rcases huv with (he | ⟨h1, h2⟩ | ⟨h1, h2⟩) | hm
      · exact Relation.EqvGen.rel u v (Or.inl he)
      · refine Relation.EqvGen.trans u ab.1 v (Relation.EqvGen.rel _ _ (Or.inl h1)) ?_
        refine Relation.EqvGen.trans ab.1 ab.2 v ?_ ?_
        · exact Relation.EqvGen.rel _ _ (Or.inr (List.mem_cons_self ab rest))
        · exact Relation.EqvGen.symm _ _ (Relation.EqvGen.rel _ _ (Or.inl h2))
      · refine Relation.EqvGen.trans u ab.2 v (Relation.EqvGen.rel _ _ (Or.inl h1)) ?_
        refine Relation.EqvGen.trans ab.2 ab.1 v ?_ ?_
        · exact Relation.EqvGen.symm _ _
            (Relation.EqvGen.rel _ _ (Or.inr (List.mem_cons_self ab rest)))
        · exact Relation.EqvGen.symm _ _ (Relation.EqvGen.rel _ _ (Or.inl h2))
      · exact Relation.EqvGen.rel u v (Or.inr (List.mem_cons_of_mem ab hm))
    | refl u => exact Relation.EqvGen.refl u
    | symm u v _ ih => exact Relation.EqvGen.symm u v ih
    | trans u v w _ _ ih1 ih2 => exact Relation.EqvGen.trans u v w ih1 ih2
  · intro h
    induction h with
    | rel u v huv =>
      rcases huv with he | hm
      · exact Relation.EqvGen.rel u v (Or.inl (Or.inl he))
      · rcases List.mem_cons.mp hm with heq | hm'
        · have h1 : u = ab.1 := congrArg Prod.fst heq
          have h2 : v = ab.2 := congrArg Prod.snd heq
          refine Relation.EqvGen.rel u v (Or.inl (Or.inr (Or.inl ⟨?_, ?_⟩)))
          · exact h1 ▸ hE.refl u
          · exact h2 ▸ hE.refl v
        · exact Relation.EqvGen.rel u v (Or.inr hm')
    | refl u => exact Relation.EqvGen.refl u
    | symm u v _ ih => exact Relation.EqvGen.symm u v ih
    | trans u v w _ _ ih1 ih2 => exact Relation.EqvGen.trans u v w ih1 ih2

/-- The merged relation after one `union` step is again an equivalence. -/
theorem equivalence_merge {E : ℕ → ℕ → Prop} (hE : Equivalence E) (a b : ℕ) :
    Equivalence (fun x y => E x y ∨ (E x a ∧ E y b) ∨ (E x b ∧ E y a)) := by
  refine ⟨fun x => Or.inl (hE.refl x), ?_, ?_⟩
  · rintro x y (h | ⟨h1, h2⟩ | ⟨h1, h2⟩)
    · exact Or.inl (hE.symm h)
    · exact Or.inr (Or.inr ⟨h2, h1⟩)
    · exact Or.inr (Or.inl ⟨h2, h1⟩)
  · rintro x y z (h | ⟨h1, h2⟩ | ⟨h1, h2⟩) (h' | ⟨h1', h2'⟩ | ⟨h1', h2'⟩)
    · exact Or.inl (hE.trans h h')
    · exact Or.inr (Or.inl ⟨hE.trans h h1', h2'⟩)
    · exact Or.inr (Or.inr ⟨hE.trans h h1', h2'⟩)
    · exact Or.inr (Or.inl ⟨h1, hE.trans (hE.symm h') h2⟩)
    · exact Or.inr (Or.inl ⟨h1, h2'⟩)
    · exact Or.inl (hE.trans h1 (hE.symm h2'))
    · exact Or.inr (Or.inr ⟨h1, hE.trans (hE.symm h') h2⟩)
    · exact Or.inl (hE.trans h1 (hE.symm h2'))
    · exact Or.inr (Or.inr ⟨h1, h2'⟩)

/-- Running a list of unions refines the starting partition by exactly the
equivalence closure of the merged pairs. -/
theorem runUnions_spec {V : Finset ℕ} {fuel : ℕ} (hfuel : V.card ≤ fuel) :
    ∀ (us : List (ℕ × ℕ)) (p : ℕ → ℕ) (E : ℕ → ℕ → Prop), Inv V p →
      (∀ ab ∈ us, ab.1 ∈ V ∧ ab.2 ∈ V) → Equivalence E →
      (∀ x y, Same p x y ↔ E x y) →
      Inv V (runUnions fuel us p) ∧
      ∀ x y, Same (runUnions fuel us p) x y ↔
        Relation.EqvGen (fun u v => E u v ∨ (u, v) ∈ us) x y := by
  intro us
  induction us with
  | nil =>
    intro p E hInv _ hE hbase
    refine ⟨hInv, fun x y => ?_⟩
    rw [runUnions, List.foldl_nil, hbase x y]
    constructor
    · intro h
      exact Relation.EqvGen.rel x y (Or.inl h)
    · intro h
      rw [← hE.eqvGen_iff]
      refine Relation.EqvGen.mono ?_ h
      rintro u v (he | hm)
      · exact he
      · exact absurd hm (List.not_mem_nil (u, v))
  | cons ab rest ih =>
    intro p E hInv hus hE hbase
    have hmem1 : ab.1 ∈ V := (hus ab (List.mem_cons_self ab rest)).1
    have hmem2 : ab.2 ∈ V := (hus ab (List.mem_cons_self ab rest)).2
    obtain ⟨hInv', hsame'⟩ := union_spec hInv hfuel hmem1 hmem2
    have hbase' : ∀ x y, Same (union fuel p ab.1 ab.2) x y ↔
        (E x y ∨ (E x ab.1 ∧ E y ab.2) ∨ (E x ab.2 ∧ E y ab.1)) := by
      intro x y
      rw [hsame' x y, hbase x y, hbase x ab.1, hbase y ab.2, hbase x ab.2, hbase y ab.1]
    have hrun : runUnions fuel (ab :: rest) p =
        runUnions fuel rest (union fuel p ab.1 ab.2) := by
      rw [runUnions, runUnions, List.foldl_cons]
    obtain ⟨hInvF, hsameF⟩ := ih (union fuel p ab.1 ab.2)
      (fun x y => E x y ∨ (E x ab.1 ∧ E y ab.2) ∨ (E x ab.2 ∧ E y ab.1)) hInv'
      (fun cd hcd => hus cd (List.mem_cons_of_mem ab hcd))
      (equivalence_merge hE ab.1 ab.2) hbase'
    rw [hrun]
    refine ⟨hInvF, fun x y => ?_⟩
    rw [hsameF x y]
    exact eqvGen_cons_iff hE ab rest x y

/-- The packaged union-find correctness statement: starting from the identity
parent map, after any sequence of unions the partition is exactly the
equivalence closure of the merged pairs. -/
theorem runUnions_partition {V : Finset ℕ} {fuel : ℕ} (hfuel : V.card ≤ fuel)
    (us : List (ℕ × ℕ)) (hus : ∀ ab ∈ us, ab.1 ∈ V ∧ ab.2 ∈ V) :
    Inv V (runUnions fuel us id) ∧
    ∀ x y, Same (runUnions fuel us id) x y ↔
      Relation.EqvGen (fun u v => (u, v) ∈ us) x y := by
  obtain ⟨hInv, hsame⟩ := runUnions_spec hfuel us id Eq (inv_id V) hus eq_equivalence same_id_iff
  refine ⟨hInv, fun x y => (hsame x y).trans ⟨?_, ?_⟩⟩
  · intro h
    induction h with
    | rel u v huv =>
      rcases huv with he | hm
      · exact he ▸ Relation.EqvGen.refl u
      · exact Relation.EqvGen.rel u v hm
    | refl u => exact Relation.EqvGen.refl u
    | symm u v _ ih2 => exact Relation.EqvGen.symm u v ih2
    | trans u v w _ _ ih1 ih2 => exact Relation.EqvGen.trans u v w ih1 ih2
  · intro h
    exact Relation.EqvGen.mono (fun u v hm => Or.inr hm) h

end UF

/-! ## Shared list/string helpers used by several stages

`sortedDedup*` models Python `sorted(set(...))`; `joinPipe` models `"|".join(...)`;
`listMin`/`listMax` model pandas `.min()`/`.max()` on a non-empty numeric column;
`meanOpt` models `.mean(skipna=True)` (None for an all-missing column);
`strip` models `str.strip()` on ASCII whitespace. -/

/-- Lexicographic comparison of char lists by code point: the ordering Python
uses on `str`.  (Core `String.ltb` is iterator-based and does not reduce in the
kernel, so the order is defined structurally here.) -/
def charListLt : List Char → List Char → Bool
  | [], [] => false
  | [], _ :: _ => true
  | _ :: _, [] => false
  | c :: cs, d :: ds =>
    if c.toNat < d.toNat then true
    else if d.toNat < c.toNat then false
    else charListLt cs ds

def strLt (a b : String) : Prop := charListLt a.data b.data = true

def strLe (a b : String) : Prop := strLt a b ∨ a = b

instance : DecidableRel strLt := fun a b => by
  unfold strLt
  infer_instance

instance : DecidableRel strLe := fun a b => by
  unfold strLe
  infer_instance

def sortedDedupStr (l : List String) : List String :=
  List.insertionSort strLe l.dedup

def sortedDedupNat (l : List ℕ) : List ℕ :=
  List.insertionSort (· ≤ ·) l.dedup

def joinPipe : List String → String
  | [] => ""
  | [s] => s
  | s :: rest => s ++ "|" ++ joinPipe rest

def listMin : List ℚ → ℚ
  | [] => 0
  | x :: xs => xs.foldl min x

def listMax : List ℚ → ℚ
  | [] => 0
  | x :: xs => xs.foldl max x

def meanOpt (l : List ℚ) : Option ℚ :=
  if l = [] then none else some (l.sum / l.length)

def trimChars (l : List Char) : List Char :=
  ((l.dropWhile Char.isWhitespace).reverse.dropWhile Char.isWhitespace).reverse

def strip (s : String) : String := String.mk (trimChars s.data)

/-! ## Part 2: the BGC Unifier (`merge_overlaps` of unify_bgc.py) -/

/-- One standardized BGC record row (the fields of the `BGCRecord` dataclass /
of the prepared dataframe).  `stop` is the Python `End` column (`end` is a Lean
keyword); `score` is `Option ℚ` because `Score` may be NaN after coercion. -/
structure BGCRecord where
  sampleId : String
  start : ℚ
  stop : ℚ
  score : Option ℚ
  tool : String
  clusterType : String
  coreEnzymes : List String
  mibigHits : List String
  bgcId : String
  deriving DecidableEq, Repr

instance : Inhabited BGCRecord :=
  ⟨⟨"", 0, 0, none, "", "", [], [], ""⟩⟩

/-- Python `reciprocal_overlap(record_a, record_b)`: intersection over each length,
taking the stricter (smaller) fraction; degenerate cases score 0. -/
def reciprocal_overlap (a b : BGCRecord) : ℚ :=
  let s := max a.start b.start
  let e := min a.stop b.stop
  if e ≤ s then 0
  else
    let la := a.stop - a.start
    let lb := b.stop - b.start
    if la ≤ 0 ∨ lb ≤ 0 then 0
    else min ((e - s) / la) ((e - s) / lb)

/-- Python `itertools.combinations(idx, 2)`: ordered pairs, first component earlier. -/
def combPairs : List ℕ → List (ℕ × ℕ)
  | [] => []
  | x :: xs => xs.map (fun y => (x, y)) ++ combPairs xs

/-- The within-sample pairs whose reciprocal overlap reaches the threshold
(the pairs on which `uf.union(idx_a, idx_b)` is called). -/
def edgesOf (rs : List BGCRecord) (t : ℚ) : List (ℕ × ℕ) :=
  (combPairs (List.range rs.length)).filter fun ab =>
    decide (t ≤ reciprocal_overlap (rs.getD ab.1 default) (rs.getD ab.2 default))

/-- The union-find parent map after the pair loop of `merge_overlaps`. -/
def finalParent (rs : List BGCRecord) (t : ℚ) : ℕ → ℕ :=
  UF.runUnions rs.length (edgesOf rs t) id

/-- The `uf.find(idx)` calls of the group-collection loop, with the state
threaded through each call. -/
def rootsAux (fuel : ℕ) (p : ℕ → ℕ) : List ℕ → List ℕ
  | [] => []
  | i :: is =>
    let f := UF.findC fuel p i
    f.1 :: rootsAux fuel f.2 is

/-- The per-sample groups of `merge_overlaps`: local record indices collected
by root, emitted in ascending order of root index (Python's
`sorted(groups.items())`). -/
def sampleGroups (rs : List BGCRecord) (t : ℚ) : List (List ℕ) :=
  let n := rs.length
  let p := finalParent rs t
  let roots := rootsAux n p (List.range n)
  let keys := sortedDedupNat roots
  keys.map fun r =>
    ((List.range n).zip roots).filterMap fun ir => if ir.2 = r then some ir.1 else none

/-- One unified output row of `merge_overlaps` (before BGCUID assignment). -/
structure URow where
  sampleId : String
  tool : String
  clusterType : String
  start : ℚ
  stop : ℚ
  score : Option ℚ
  coreEnzymes : List String
  mibigHits : List String
  memberBGCIDs : List String
  deriving DecidableEq, Repr

/-- The multi-member branch of `merge_overlaps`: tools/cluster types deduplicated,
sorted and pipe-joined; Start/End aggregated by min/max; Score by mean over
non-missing values; enzyme/MIBiG tags unioned and sorted. -/
def unifyGroup (sampleId : String) (ms : List BGCRecord) : URow :=
  let cts := sortedDedupStr ((ms.map (·.clusterType)).filter fun c => decide (c ≠ ""))
  { sampleId := sampleId
    tool := joinPipe (sortedDedupStr (ms.map (·.tool)))
    clusterType := if cts ≠ [] then joinPipe cts else ""
    start := listMin (ms.map (·.start))
    stop := listMax (ms.map (·.stop))
    score := meanOpt (ms.filterMap (·.score))
    coreEnzymes := sortedDedupStr (ms.flatMap (·.coreEnzymes))
    mibigHits := sortedDedupStr (ms.flatMap (·.mibigHits))
    memberBGCIDs := ms.map (·.bgcId) }

/-- The single-row pass-through branch of `merge_overlaps`. -/
def singletonRow (sampleId : String) (r : BGCRecord) : URow :=
  { sampleId := sampleId
    tool := r.tool
    clusterType := r.clusterType
    start := r.start
    stop := r.stop
    score := r.score
    coreEnzymes := r.coreEnzymes
    mibigHits := r.mibigHits
    memberBGCIDs := [r.bgcId] }

/-- Python `df.groupby("SampleID", sort=True)` keys: sorted distinct sample ids. -/
def sampleKeys (df : List BGCRecord) : List String :=
  sortedDedupStr (df.map (·.sampleId))

/-- The rows of one sample group, in original order. -/
def sampleRows (df : List BGCRecord) (s : String) : List BGCRecord :=
  df.filter fun r => decide (r.sampleId = s)

/-- The unified rows before the global sort and BGCUID assignment. -/
def preRows (df : List BGCRecord) (t : ℚ) : List URow :=
  (sampleKeys df).flatMap fun s =>
    let rs := sampleRows df s
    if rs.length = 1 then [singletonRow s (rs.getD 0 default)]
    else (sampleGroups rs t).map fun g => unifyGroup s (g.map fun i => rs.getD i default)

/-- The `sort_values(["SampleID", "Start", "End"])` ordering. -/
def urowLe (a b : URow) : Prop :=
  strLt a.sampleId b.sampleId ∨
    (a.sampleId = b.sampleId ∧
      (a.start < b.start ∨ (a.start = b.start ∧ a.stop ≤ b.stop)))

instance : DecidableRel urowLe := fun a b => by
  unfold urowLe
  infer_instance

/-- Python `f"{seq:03d}"`. -/
def pad3 (n : ℕ) : String :=
  if n < 10 then "00" ++ toString n
  else if n < 100 then "0" ++ toString n
  else toString n

/-- Python `f"{sample}_BGCUID_{seq:03d}"`. -/
def mkUid (s : String) (c : ℕ) : String := s ++ "_BGCUID_" ++ pad3 c

/-- A unified row with its assigned BGCUID (the final output schema). -/
structure UnifiedRow where
  bgcuid : String
  row : URow
  deriving DecidableEq, Repr

/-- The BGCUID-assignment loop: per-sample counters, sequence restarting at 1
for each sample, in the post-sort row order. -/
def assignUids (counts : String → ℕ) : List URow → List UnifiedRow
  | [] => []
  | r :: rest =>
    let c := counts r.sampleId + 1
    ⟨mkUid r.sampleId c, r⟩ :: assignUids (Function.update counts r.sampleId c) rest

/-- Python `merge_overlaps(df, threshold)`: group each sample's records by reciprocal
overlap at the threshold, aggregate each group, sort the unified rows by
(SampleID, Start, End) and assign sample-scoped sequential BGCUIDs. -/
def merge_overlaps (df : List BGCRecord) (t : ℚ) : List UnifiedRow :=
  assignUids (fun _ => 0) (List.insertionSort urowLe (preRows df t))

/-! ## Part 3: the Evidence Linker (link_bgc_ms_refs.py) -/

/-- Unified BGC row as read by the Linker (the fields its scorers use). -/
structure BGCRow where
  bgcuid : String
  sampleId : String
  clusterType : String
  mibigHits : List String
  deriving DecidableEq, Repr

/-- One raw normalized-feature row (before `build_mapping`'s intensity prep). -/
structure FeatureRaw where
  featureId : String
  sampleId : String
  mz : Option ℚ
  intensity : ℚ
  intensityNormalized : Option ℚ
  deriving DecidableEq, Repr

/-- A feature row after `build_mapping` attaches `_sample_total` and (when the
normalized column was absent) computes `intensity_normalized`. -/
structure FeatureRow where
  featureId : String
  sampleId : String
  mz : Option ℚ
  intensity : ℚ
  intensityNormalized : Option ℚ
  sampleTotal : ℚ
  deriving DecidableEq, Repr

/-- Chemical reference row (the fields the Linker uses). -/
structure CompoundRow where
  compoundId : String
  source : String
  smiles : String
  deriving DecidableEq, Repr

/-- One persisted evidence row; absent identifiers are the empty string
(`fillna` of the `pd.NA` placeholders). -/
structure EvRow where
  bgcuid : String
  featureID : String
  compoundID : String
  evidenceType : String
  score : ℚ
  notes : String
  deriving DecidableEq, Repr

/-- The fixed `TYPE_MAPPING` dict (`sources.get(ct, set())`). -/
def TYPE_MAPPING (ct : String) : List String :=
  if ct = "NRPS" then ["NPAtlas", "MIBiG"]
  else if ct = "PKS" then ["MIBiG"]
  else if ct = "RIPP" then ["NPAtlas", "MIBiG"]
  else []

/-- Python `str.split(",")` on a char list. -/
def splitCommaChars (l : List Char) : List (List Char) :=
  l.foldr
    (fun c acc =>
      if c = ',' then [] :: acc
      else
        match acc with
        | [] => [[c]]
        | cur :: rest => (c :: cur) :: rest)
    [[]]

/-- Python `expand_cluster_types`: replace `|` by `,`, split on `,`, strip and
uppercase each token, drop empties. -/
def expand_cluster_types (clusterType : String) : List String :=
  let tokens := (splitCommaChars (clusterType.data.map fun c =>
    if c = '|' then ',' else c)).map fun tok => String.mk ((trimChars tok).map Char.toUpper)
  tokens.filter fun tok => decide (tok ≠ "")

/-- Python `smiles.count(c)` for a single character. -/
def countChar (s : String) (c : Char) : ℕ := (s.data.filter fun d => d == c).length

/-- Python `estimate_mass`: NaN (None) for a missing structural string, else the
placeholder heuristic `12·#C + 14·#(N,O,S,P) + 18`. -/
def estimate_mass (smiles : String) : Option ℚ :=
  if smiles = "" then none
  else some ((countChar smiles 'C' : ℚ) * 12 +
    ((countChar smiles 'N' : ℚ) + (countChar smiles 'O' : ℚ) +
      (countChar smiles 'S' : ℚ) + (countChar smiles 'P' : ℚ)) * 14 + 18)

/-- Python `score_bgc_compound`: `alpha` on a cluster-type/source match, `+beta` when
MIBiG hits are present and the score is positive, clamped by `min(score, 1.0)`. -/
def score_bgc_compound (b : BGCRow) (c : CompoundRow) (alpha beta : ℚ) : ℚ :=
  let cluster_types := expand_cluster_types b.clusterType
  let compound_source := strip c.source
  let match_found := cluster_types.any fun ct => (TYPE_MAPPING ct).contains compound_source
  let score : ℚ := if match_found then alpha else 0
  if b.mibigHits ≠ [] ∧ 0 < score then min (score + beta) 1 else min score 1

/-- Python `score_feature_compound`: 0 for missing m/z or missing/zero estimated mass,
else `min(gamma, 1.0)` iff the ppm error is within tolerance. -/
def score_feature_compound (f : FeatureRow) (c : CompoundRow)
    (ppm_tolerance gamma : ℚ) : ℚ :=
  match f.mz with
  | none => 0
  | some mz =>
    match estimate_mass c.smiles with
    | none => 0
    | some mass =>
      if mass = 0 then 0
      else
        let ppm := |mz - mass| / mass * 1000000
        if ppm ≤ ppm_tolerance then min gamma 1 else 0

/-- Python `score_bgc_feature`: same-sample co-occurrence weighted by normalized
intensity, with a 0.01 intensity floor and a cap at 1. -/
def score_bgc_feature (b : BGCRow) (f : FeatureRow) (delta : ℚ) : ℚ :=
  if b.sampleId ≠ f.sampleId then 0
  else
    let intensity :=
      match f.intensityNormalized with
      | some v => v
      | none => if f.sampleTotal ≠ 0 then f.intensity / f.sampleTotal else 0
    if 1 / 100 ≤ intensity then min (delta * intensity) 1 else 0

/-- The intensity preprocessing of `build_mapping`: when the table has no
`intensity_normalized` column, attach per-sample totals and compute it;
otherwise `_sample_total` is set to 0 and the column kept as-is. -/
def prepFeatures (features : List FeatureRaw) (hasNorm : Bool) : List FeatureRow :=
  if hasNorm then
    features.map fun f =>
      ⟨f.featureId, f.sampleId, f.mz, f.intensity, f.intensityNormalized, 0⟩
  else
    features.map fun f =>
      let total := ((features.filter fun g => g.sampleId == f.sampleId).map (·.intensity)).sum
      ⟨f.featureId, f.sampleId, f.mz, f.intensity,
        some (if total ≠ 0 then f.intensity / total else 0), total⟩

/-- Python `round(x, 4)` as rational rounding to 4 decimal places (half-way
cases rounded up; Python's float rounding differs only on exact ties). -/
def round4 (q : ℚ) : ℚ := ((q * 10000 + 1 / 2).floor : ℚ) / 10000

/-- Python `build_mapping`: the three cross-product scoring loops; only rows with a
positive score are emitted, each clamped by `min(score, 1.0)` and rounded to 4
decimals; the absent identifier of each relation type is persisted as "". -/
def build_mapping (bgcs : List BGCRow) (featuresRaw : List FeatureRaw) (hasNorm : Bool)
    (compounds : List CompoundRow) (alpha beta gamma delta ppm_tolerance : ℚ) :
    List EvRow :=
  let features := prepFeatures featuresRaw hasNorm
  (bgcs.flatMap fun b => compounds.filterMap fun c =>
    let score := score_bgc_compound b c alpha beta
    if 0 < score then
      some ⟨b.bgcuid, "", c.compoundId, "bgc_compound", round4 (min score 1),
        "Cluster type vs compound source match"⟩
    else none) ++
  (features.flatMap fun f => compounds.filterMap fun c =>
    let score := score_feature_compound f c ppm_tolerance gamma
    if 0 < score then
      some ⟨"", f.featureId, c.compoundId, "feature_compound", round4 (min score 1),
        "m/z within ppm window"⟩
    else none) ++
  (bgcs.flatMap fun b => features.filterMap fun f =>
    let score := score_bgc_feature b f delta
    if 0 < score then
      some ⟨b.bgcuid, f.featureId, "", "bgc_feature", round4 (min score 1),
        "Co-occurrence in sample with high intensity"⟩
    else none)

/-! ## Part 4: the Candidate Ranker (rank_candidates.py) -/

/-- Python `_sanitize_compound_id` composed with the preceding `replace({"": pd.NA})`:
an exactly-empty cell becomes `pd.NA`, which stringifies to `"<NA>"`; any other
cell is stripped. -/
def sanitizeCid (s : String) : String := if s = "" then "<NA>" else strip s

/-- The collection guard `pd.notna(val) and str(val).strip()` after the
`replace({"": pd.NA})` (only exactly-empty cells became NA). -/
def notnaNonblank (s : String) : Bool := decide (s ≠ "") && decide (strip s ≠ "")

/-- One aggregated per-compound row of `aggregate_evidence`. -/
structure AggRow where
  compoundId : String
  evidenceScore : ℚ
  evidenceCount : ℕ
  bgcuids : List String
  featureIds : List String
  deriving DecidableEq, Repr

/-- Python `aggregate_evidence`: sanitize CompoundID, drop rows whose sanitized id is
empty, group by the sanitized id (pandas groupby sorts keys), and aggregate
mean score, row count and the sorted sets of non-blank linked ids. -/
def aggregate_evidence (evidence : List EvRow) : List AggRow :=
  let keys := (sortedDedupStr (evidence.map fun r => sanitizeCid r.compoundID)).filter
    fun c => decide (c ≠ "")
  keys.map fun c =>
    let rows := evidence.filter fun r => decide (sanitizeCid r.compoundID = c)
    { compoundId := c
      evidenceScore := (rows.map (·.score)).sum / rows.length
      evidenceCount := rows.length
      bgcuids := sortedDedupStr ((rows.map (·.bgcuid)).filter notnaNonblank)
      featureIds := sortedDedupStr ((rows.map (·.featureID)).filter notnaNonblank) }

/-- Python `enrich_with_bgc_feature_links`: for every `bgc_feature` row whose BGCUID
also carries a `bgc_compound` row for a compound, add that feature to the
compound's FeatureIDs; each output set is emitted sorted.  (The source builds
`feature_links` as a dict keyed by CompoundID; on the `aggregate_evidence`
output, whose CompoundIDs are pairwise distinct, that is this per-row map.) -/
def enrich_with_bgc_feature_links (evidence : List EvRow) (aggregated : List AggRow) :
    List AggRow :=
  if evidence = [] ∨ aggregated = [] then aggregated
  else
    let compoundRows := evidence.filter fun r =>
      decide (r.evidenceType = "bgc_compound") && decide (r.compoundID ≠ "") &&
        decide (r.bgcuid ≠ "")
    let featureRows := evidence.filter fun r =>
      decide (r.evidenceType = "bgc_feature") && decide (r.bgcuid ≠ "") &&
        decide (r.featureID ≠ "")
    aggregated.map fun a =>
      let extra := (featureRows.filter fun bf =>
        compoundRows.any fun bc => bc.bgcuid == bf.bgcuid && bc.compoundID == a.compoundId).map
        (·.featureID)
      { a with featureIds := sortedDedupStr (a.featureIds ++ extra) }

/-- One input row of `compute_scores` (the post-`join_metadata` table fields it
reads; EvidenceScore may still be NaN and is `fillna(0.0)`-ed there). -/
structure RankRow where
  compoundId : String
  evidenceScore : Option ℚ
  evidenceCount : Option ℕ
  bgcuids : Option (List String)
  featureIds : Option (List String)
  admetScore : ℚ
  novelty : ℚ
  deriving DecidableEq, Repr

/-- A row with its computed AggregateScore, before sorting. -/
structure ScoredRow where
  base : RankRow
  aggregateScore : ℚ
  deriving DecidableEq, Repr

/-- One output row of `compute_scores`. -/
structure RankedRow where
  compoundId : String
  evidenceScore : ℚ
  evidenceCount : Option ℕ
  admetScore : ℚ
  novelty : ℚ
  aggregateScore : ℚ
  rank : ℕ
  bgcuids : String
  featureIds : String
  evidenceSummary : String
  deriving DecidableEq, Repr

/-- Python `fillna(0.0)` on EvidenceScore and the weighted AggregateScore. -/
def scoredRows (df : List RankRow) (w1 w2 w3 : ℚ) : List ScoredRow :=
  df.map fun r =>
    let ev := r.evidenceScore.getD 0
    ⟨{ r with evidenceScore := some ev }, w1 * ev + w2 * r.admetScore + w3 * r.novelty⟩

/-- The `sort_values("AggregateScore", ascending=False)` ordering. -/
def descLe (a b : ScoredRow) : Prop := b.aggregateScore ≤ a.aggregateScore

instance : DecidableRel descLe := fun a b => by
  unfold descLe
  infer_instance

/-- Python `df.sort_values("AggregateScore", ascending=False)` at
rank_candidates.py:173 is called without a `kind=` argument, so pandas runs its
default `quicksort` (numpy introsort), which pandas documents as not stable.
The code therefore guarantees only that the result is a permutation of the rows
that is descending in AggregateScore; the relative order of equal keys is
unspecified.  The sort is modelled as this relation between the input rows and a
possible output. -/
def SortValuesDesc (l sorted : List ScoredRow) : Prop :=
  List.Perm sorted l ∧ List.Pairwise descLe sorted

/-- One output row: `Rank = index + 1` after `reset_index`, the id lists
pipe-joined (non-lists become ""), and the evidence summary string. -/
def finalizeRow (rank : ℕ) (s : ScoredRow) : RankedRow :=
  { compoundId := s.base.compoundId
    evidenceScore := s.base.evidenceScore.getD 0
    evidenceCount := s.base.evidenceCount
    admetScore := s.base.admetScore
    novelty := s.base.novelty
    aggregateScore := s.aggregateScore
    rank := rank
    bgcuids := match s.base.bgcuids with | some l => joinPipe l | none => ""
    featureIds := match s.base.featureIds with | some l => joinPipe l | none => ""
    evidenceSummary :=
      match s.base.evidenceCount with
      | some c => toString c ++ " evidence links"
      | none => "0 evidence links" }

/-- Python `df.index + 1` rank assignment down the sorted rows. -/
def attachRanks : ℕ → List ScoredRow → List RankedRow
  | _, [] => []
  | i, s :: rest => finalizeRow i s :: attachRanks (i + 1) rest

/-- Python `compute_scores`, relationally: EvidenceScore `fillna(0.0)` and the
weighted AggregateScore, a descending `sort_values` whose algorithm does not fix
the order of equal keys, then 1-based Rank down the sorted rows.  `out` is a
possible output of the function on `df`. -/
def ComputeScoresRel (df : List RankRow) (w1 w2 w3 : ℚ) (out : List RankedRow) : Prop :=
  ∃ sorted, SortValuesDesc (scoredRows df w1 w2 w3) sorted ∧ out = attachRanks 1 sorted

/-! ## Claim theorems -/

/-- Interval [0,100] (the literal example record; only the coordinates matter). -/
def exRec1 : BGCRecord := ⟨"S1", 0, 100, some 80, "antismash", "NRPS", ["a"], [], "S1_antismash_1"⟩

/-- Interval [10,110]. -/
def exRec2 : BGCRecord := ⟨"S1", 10, 110, some (9 / 10), "deepbgc", "NRPS", ["b"], ["X"], "S1_deepbgc_1"⟩

/-- Interval [120,220]. -/
def exRec3 : BGCRecord := ⟨"S1", 120, 220, some (8 / 10), "prism", "PKS", [], [], "S1_prism_1"⟩

/-- C3: the Unifier's reciprocal-overlap function returns
`min(intersection/length_a, intersection/length_b)` on positively-overlapping
positive-length intervals, returns 0 whenever either interval has non-positive
length or the intervals do not intersect, and on the literal examples scores
[0,100]/[10,110] at 0.9 and [0,100]/[120,220] at 0. -/
theorem C3_reciprocal_overlap :
    (∀ a b : BGCRecord,
      0 < a.stop - a.start → 0 < b.stop - b.start →
      max a.start b.start < min a.stop b.stop →
      reciprocal_overlap a b =
        min ((min a.stop b.stop - max a.start b.start) / (a.stop - a.start))
          ((min a.stop b.stop - max a.start b.start) / (b.stop - b.start))) ∧
    (∀ a b : BGCRecord,
      (a.stop - a.start ≤ 0 ∨ b.stop - b.start ≤ 0 ∨
        min a.stop b.stop ≤ max a.start b.start) →
      reciprocal_overlap a b = 0) ∧
    reciprocal_overlap exRec1 exRec2 = 9 / 10 ∧
    reciprocal_overlap exRec1 exRec3 = 0 := by
  refine ⟨?_, ?_, by decide, by decide⟩
  · intro a b hla hlb hint
    unfold reciprocal_overlap
    rw [if_neg (not_le.mpr hint), if_neg]
    push_neg
    constructor <;> linarith
  · intro a b hdeg
    unfold reciprocal_overlap
    by_cases hint : min a.stop b.stop ≤ max a.start b.start
    · rw [if_pos hint]
    · rw [if_neg hint]
      rw [if_pos]
      rcases hdeg with h | h | h
      · exact Or.inl h
      · exact Or.inr h
      · exact absurd h hint

/-- C3 witness: the general overlap formula instantiated on [0,100]/[10,110]. -/
theorem C3_reciprocal_overlap_witness :
    ((0:ℚ) < exRec1.stop - exRec1.start ∧ (0:ℚ) < exRec2.stop - exRec2.start ∧
      max exRec1.start exRec2.start < min exRec1.stop exRec2.stop) ∧
    reciprocal_overlap exRec1 exRec2 =
      min ((min exRec1.stop exRec2.stop - max exRec1.start exRec2.start) /
          (exRec1.stop - exRec1.start))
        ((min exRec1.stop exRec2.stop - max exRec1.start exRec2.start) /
          (exRec2.stop - exRec2.start)) :=
  ⟨by decide, C3_reciprocal_overlap.1 exRec1 exRec2 (by decide) (by decide) (by decide)⟩

/-- The mass-matching feature of the counterexamples: m/z 56 matches the
heuristic mass of "CCO" exactly. -/
def exFeat : FeatureRow := ⟨"F1", "S1", some 56, 1000, some (1 / 2), 0⟩

/-- The matching compound. -/
def exComp : CompoundRow := ⟨"C1", "NPAtlas", "CCO"⟩

/-- C7 counterexample: with gamma = 2 the ppm error is 0 ≤ tolerance 10, yet
the returned score is 1, not gamma — the code clamps with `min(gamma, 1.0)`,
which the claim omits. -/
theorem C7_score_not_gamma :
    exFeat.mz = some 56 ∧ estimate_mass exComp.smiles = some 56 ∧
    |(56:ℚ) - 56| / 56 * 1000000 ≤ 10 ∧
    score_feature_compound exFeat exComp 10 2 = 1 ∧ (1 : ℚ) ≠ 2 := by
  refine ⟨rfl, by decide, by decide, by decide, by decide⟩

/-- C7 (amended): the feature-compound score is `min(gamma, 1)` when the ppm
error between the feature's m/z and the heuristically estimated mass is within
the ppm tolerance and 0 otherwise; a missing m/z and a missing or zero
estimated mass always yield 0.  (Equal to gamma whenever gamma ≤ 1.) -/
theorem C7_score_feature_compound (f : FeatureRow) (c : CompoundRow)
    (tol gamma : ℚ) :
    (f.mz = none → score_feature_compound f c tol gamma = 0) ∧
    (estimate_mass c.smiles = none → score_feature_compound f c tol gamma = 0) ∧
    (∀ mz, f.mz = some mz → estimate_mass c.smiles = some 0 →
      score_feature_compound f c tol gamma = 0) ∧
    (∀ mz mass, f.mz = some mz → estimate_mass c.smiles = some mass → mass ≠ 0 →
      score_feature_compound f c tol gamma =
        if |mz - mass| / mass * 1000000 ≤ tol then min gamma 1 else 0) := by
  refine ⟨?_, ?_, ?_, ?_⟩
  · intro h
    simp only [score_feature_compound, h]
  · intro h
    cases hmz : f.mz with
    | none => simp only [score_feature_compound, hmz]
    | some mz => simp only [score_feature_compound, hmz, h]
  · intro mz hmz hmass
    simp [score_feature_compound, hmz, hmass]
  · intro mz mass hmz hmass hne
    simp only [score_feature_compound, hmz, hmass]
    rw [if_neg hne]

/-- C7 witness: the amended claim instantiated at the exact-match example with
the default gamma 0.7. -/
theorem C7_score_feature_compound_witness :
    (exFeat.mz = some 56 ∧ estimate_mass exComp.smiles = some 56 ∧ (56:ℚ) ≠ 0) ∧
    score_feature_compound exFeat exComp 10 (7 / 10) =
      if |(56:ℚ) - 56| / 56 * 1000000 ≤ 10 then min (7 / 10 : ℚ) 1 else 0 :=
  ⟨⟨rfl, by decide, by decide⟩,
    (C7_score_feature_compound exFeat exComp 10 (7 / 10)).2.2.2 56 56 rfl (by decide)
      (by decide)⟩

/-- The failing input of C2: a single `bgc_feature` evidence row, whose
CompoundID is (correctly) empty. -/
def exEvBF : EvRow := ⟨"B1", "F1", "", "bgc_feature", 1 / 2, "Co-occurrence in sample with high intensity"⟩

/-- C2: the aggregation is claimed to drop rows with an empty CompoundID, but
`replace({"": pd.NA})` runs before `_sanitize_compound_id`, which stringifies
`pd.NA` to "<NA>"; the `!= ""` guard then keeps it, so a lone `bgc_feature`
row (no compound at all) yields an aggregated row for the synthetic compound
"<NA>" — a compound with zero evidence rows appears in the ranking input. -/
theorem C2_zero_evidence_na_row :
    aggregate_evidence [exEvBF] = [⟨"<NA>", 1 / 2, 1, ["B1"], ["F1"]⟩] ∧
    exEvBF.compoundID = "" ∧
    ("<NA>" : String) ≠ "" := by
  refine ⟨by decide, rfl, by decide⟩

theorem round4_nonneg {x : ℚ} (h0 : 0 ≤ x) : 0 ≤ round4 x := by
  unfold round4
  apply div_nonneg _ (by norm_num)
  have hz : (0 : ℤ) ≤ (x * 10000 + 1 / 2).floor := by
    rw [Rat.le_floor]
    push_cast
    nlinarith
  exact_mod_cast hz

theorem round4_le_one {x : ℚ} (h1 : x ≤ 1) : round4 x ≤ 1 := by
  unfold round4
  rw [div_le_one (by norm_num)]
  have hz : (x * 10000 + 1 / 2).floor ≤ 10000 := by
    by_contra hc
    push_neg at hc
    have h2 : (10001 : ℤ) ≤ (x * 10000 + 1 / 2).floor := by omega
    rw [Rat.le_floor] at h2
    push_cast at h2
    nlinarith
  exact_mod_cast hz

/-- Membership in one emission loop of `build_mapping`. -/
theorem mem_emit {α β : Type} (xs : List α) (ys : List β) (sc : α → β → ℚ)
    (mk : α → β → EvRow) {row : EvRow}
    (h : row ∈ xs.flatMap fun a => ys.filterMap fun b =>
      if 0 < sc a b then some (mk a b) else none) :
    ∃ a b, 0 < sc a b ∧ row = mk a b := by
  rw [List.mem_flatMap] at h
  obtain ⟨a, _, hmem⟩ := h
  rw [List.mem_filterMap] at hmem
  obtain ⟨b, _, hfb⟩ := hmem
  by_cases hsc : 0 < sc a b
  · rw [if_pos hsc] at hfb
    exact ⟨a, b, hsc, (Option.some.inj hfb).symm⟩
  · rw [if_neg hsc] at hfb
    exact absurd hfb (by simp)

/-- C8: every evidence row emitted by `build_mapping` has EvidenceScore in
[0,1], and in the persisted row the identifier that is absent for its evidence
type is the empty string (never a null). -/
theorem C8_evidence_invariants (bgcs : List BGCRow) (featuresRaw : List FeatureRaw)
    (hasNorm : Bool) (compounds : List CompoundRow) (alpha beta gamma delta tol : ℚ) :
    ∀ row ∈ build_mapping bgcs featuresRaw hasNorm compounds alpha beta gamma delta tol,
      (0 ≤ row.score ∧ row.score ≤ 1) ∧
      (row.evidenceType = "bgc_compound" → row.featureID = "") ∧
      (row.evidenceType = "feature_compound" → row.bgcuid = "") ∧
      (row.evidenceType = "bgc_feature" → row.compoundID = "") := by
  intro row hrow
  simp only [build_mapping, List.mem_append] at hrow
  have hbounds : ∀ sc : ℚ, 0 < sc →
      0 ≤ round4 (min sc 1) ∧ round4 (min sc 1) ≤ 1 := fun sc hsc =>
    ⟨round4_nonneg (le_of_lt (lt_min hsc one_pos)), round4_le_one (min_le_right sc 1)⟩
  rcases hrow with (h | h) | h
  · obtain ⟨a, b, hsc, rfl⟩ := mem_emit _ _ _ _ h
    refine ⟨hbounds _ hsc, fun _ => rfl, fun hc => ?_, fun hc => ?_⟩ <;> simp at hc
  · obtain ⟨a, b, hsc, rfl⟩ := mem_emit _ _ _ _ h
    refine ⟨hbounds _ hsc, fun hc => ?_, fun _ => rfl, fun hc => ?_⟩ <;> simp at hc
  · obtain ⟨a, b, hsc, rfl⟩ := mem_emit _ _ _ _ h
    refine ⟨hbounds _ hsc, fun hc => ?_, fun hc => ?_, fun _ => rfl⟩ <;> simp at hc

/-- The concrete BGC row of the witness. -/
def exBGC : BGCRow := ⟨"S1_BGCUID_001", "S1", "NRPS", ["BGC0001"]⟩

/-- The concrete raw feature of the witness. -/
def exFeatRaw : FeatureRaw := ⟨"F1", "S1", some 56, 1000, some (1 / 2)⟩

/-- The first row emitted by the concrete witness run. -/
def exEvBC : EvRow :=
  ⟨"S1_BGCUID_001", "", "C1", "bgc_compound", 6 / 10,
    "Cluster type vs compound source match"⟩

/-- C8 witness: the invariant instantiated on the first emitted row of a
concrete `build_mapping` run (a `bgc_compound` row of score 0.6). -/
theorem C8_evidence_invariants_witness :
    exEvBC ∈ build_mapping [exBGC] [exFeatRaw] true [exComp] (4 / 10) (2 / 10) (7 / 10)
        (1 / 2) 10 ∧
    (0 ≤ exEvBC.score ∧ exEvBC.score ≤ 1) :=
  ⟨by decide,
    (C8_evidence_invariants [exBGC] [exFeatRaw] true [exComp] (4 / 10) (2 / 10) (7 / 10)
      (1 / 2) 10 exEvBC (by decide)).1⟩

theorem attachRanks_length (k : ℕ) (l : List ScoredRow) :
    (attachRanks k l).length = l.length := by
  induction l generalizing k with
  | nil => rfl
  | cons s rest ih => simp [attachRanks, ih]

theorem attachRanks_get :
    ∀ (l : List ScoredRow) (k i : ℕ) (h : i < l.length),
      (attachRanks k l).get ⟨i, by rw [attachRanks_length]; exact h⟩ =
        finalizeRow (k + i) (l.get ⟨i, h⟩) := by
  intro l
  induction l with
  | nil => intro k i h; exact absurd h (Nat.not_lt_zero i)
  | cons s rest ih =>
    intro k i h
    cases i with
    | zero => rfl
    | succ i =>
      have hr : i < rest.length := Nat.lt_of_succ_lt_succ h
      have := ih (k + 1) i hr
      simpa [attachRanks, Nat.add_assoc, Nat.add_comm 1 i] using this

theorem attachRanks_mem {y : RankedRow} :
    ∀ {l : List ScoredRow} {k : ℕ}, y ∈ attachRanks k l →
      ∃ j s, s ∈ l ∧ y = finalizeRow j s := by
  intro l
  induction l with
  | nil => intro k h; exact absurd h (List.not_mem_nil y)
  | cons s rest ih =>
    intro k h
    rcases List.mem_cons.mp h with h1 | h1
    · exact ⟨k, s, List.mem_cons_self s rest, h1⟩
    · obtain ⟨j, s', hs', he⟩ := ih h1
      exact ⟨j, s', List.mem_cons_of_mem s hs', he⟩

theorem attachRanks_pairwise :
    ∀ {l : List ScoredRow}, l.Pairwise descLe → ∀ k,
      (attachRanks k l).Pairwise fun a b => b.aggregateScore ≤ a.aggregateScore := by
  intro l
  induction l with
  | nil => intro _ k; exact List.Pairwise.nil
  | cons s rest ih =>
    intro hp k
    obtain ⟨h1, h2⟩ := List.pairwise_cons.mp hp
    refine List.pairwise_cons.mpr ⟨?_, ih h2 (k + 1)⟩
    intro y hy
    obtain ⟨j, s', hs', rfl⟩ := attachRanks_mem hy
    exact h1 s' hs'

/-- What the code's sort contract does guarantee of every possible
`compute_scores` output: Rank is the 1-based position down the output and
AggregateScore is descending. -/
theorem computeScoresRel_ranks (df : List RankRow) (w1 w2 w3 : ℚ)
    (out : List RankedRow) (h : ComputeScoresRel df w1 w2 w3 out) :
    (∀ i (hi : i < out.length), (out.get ⟨i, hi⟩).rank = i + 1) ∧
    out.Pairwise fun a b => b.aggregateScore ≤ a.aggregateScore := by
  obtain ⟨sorted, ⟨_, hsort⟩, rfl⟩ := h
  constructor
  · intro i hi
    have hlen : i < sorted.length := by
      simpa [attachRanks_length] using hi
    have hrw : (attachRanks 1 sorted).get ⟨i, by
        rw [attachRanks_length]; exact hlen⟩ =
        finalizeRow (1 + i) (sorted.get ⟨i, hlen⟩) :=
      attachRanks_get sorted 1 i hlen
    rw [hrw]
    show 1 + i = i + 1
    omega
  · exact attachRanks_pairwise hsort 1

/-- Two concrete candidates that tie at AggregateScore 2/5. -/
def exRankX : RankRow := ⟨"X", some (1 / 2), some 1, none, none, 0, 1⟩

/-- The second tied candidate, originally after the first. -/
def exRankY : RankRow := ⟨"Y", some (1 / 2), some 1, none, none, 0, 1⟩

/-- C1: the tie-order clause is not a property of the code.  The sort at
rank_candidates.py:173 runs pandas' default quicksort, which is not stable, so
the code's contract is only `SortValuesDesc`: some descending permutation.  On a
concrete two-row table whose rows tie at AggregateScore 2/5 that contract admits
two distinct ranking outputs, one placing compound "X" first (original order) and
one placing compound "Y" first (ties reordered); the code therefore does not
guarantee that compounds with equal AggregateScore retain their original
post-groupby relative order, contrary to the claim. -/
theorem C1_tie_order_not_determined :
    ((scoredRows [exRankX, exRankY] (6 / 10) (3 / 10) (1 / 10)).map
      fun s => s.aggregateScore) = [2 / 5, 2 / 5] ∧
    ∃ out1 out2 : List RankedRow,
      ComputeScoresRel [exRankX, exRankY] (6 / 10) (3 / 10) (1 / 10) out1 ∧
      ComputeScoresRel [exRankX, exRankY] (6 / 10) (3 / 10) (1 / 10) out2 ∧
      out1.map RankedRow.compoundId = ["X", "Y"] ∧
      out2.map RankedRow.compoundId = ["Y", "X"] := by
  refine ⟨by decide,
    attachRanks 1 (scoredRows [exRankX, exRankY] (6 / 10) (3 / 10) (1 / 10)),
    attachRanks 1 ((scoredRows [exRankX, exRankY] (6 / 10) (3 / 10) (1 / 10)).reverse),
    ⟨_, ⟨List.Perm.refl _, by decide⟩, rfl⟩,
    ⟨_, ⟨List.reverse_perm _, by decide⟩, rfl⟩,
    by decide, by decide⟩

theorem char_eq_of_toNat_eq {c d : Char} (h : c.toNat = d.toNat) : c = d :=
  Char.ext (UInt32.ext h)

theorem string_eq_of_data_eq : ∀ {a b : String}, a.data = b.data → a = b
  | ⟨_⟩, ⟨_⟩, rfl => rfl

theorem charListLt_total : ∀ l m : List Char,
    charListLt l m = true ∨ charListLt m l = true ∨ l = m := by
  intro l
  induction l with
  | nil =>
    intro m
    cases m with
    | nil => exact Or.inr (Or.inr rfl)
    | cons d ds => exact Or.inl rfl
  | cons c cs ih =>
    intro m
    cases m with
    | nil => exact Or.inr (Or.inl rfl)
    | cons d ds =>
      rcases Nat.lt_trichotomy c.toNat d.toNat with h | h | h
      · exact Or.inl (by simp [charListLt, h])
      · have hcd : c = d := char_eq_of_toNat_eq h
        subst hcd
        rcases ih ds with h1 | h1 | h1
        · exact Or.inl (by simp [charListLt, h1])
        · exact Or.inr (Or.inl (by simp [charListLt, h1]))
        · exact Or.inr (Or.inr (by rw [h1]))
      · exact Or.inr (Or.inl (by simp [charListLt, h]))

theorem charListLt_trans : ∀ l m n : List Char,
    charListLt l m = true → charListLt m n = true → charListLt l n = true := by
  intro l
  induction l with
  | nil =>
    intro m n h1 h2
    cases m with
    | nil => simp [charListLt] at h1
    | cons d ds =>
      cases n with
      | nil => simp [charListLt] at h2
      | cons e es => rfl
  | cons c cs ih =>
    intro m n h1 h2
    cases m with
    | nil => simp [charListLt] at h1
    | cons d ds =>
      cases n with
      | nil => simp [charListLt] at h2
      | cons e es =>
        by_cases hcd : c.toNat < d.toNat <;> by_cases hde : d.toNat < e.toNat
        · simp [charListLt, Nat.lt_trans hcd hde]
        · by_cases hed : e.toNat < d.toNat
          · simp [charListLt, hde, hed] at h2
          · have : c.toNat < e.toNat := by omega
            simp [charListLt, this]
        · by_cases hdc : d.toNat < c.toNat
          · simp [charListLt, hcd, hdc] at h1
          · have : c.toNat < e.toNat := by omega
            simp [charListLt, this]
        · by_cases hdc : d.toNat < c.toNat
          · simp [charListLt, hcd, hdc] at h1
          · by_cases hed : e.toNat < d.toNat
            · simp [charListLt, hde, hed] at h2
            · simp only [charListLt, if_neg hcd, if_neg hdc] at h1
              simp only [charListLt, if_neg hde, if_neg hed] at h2
              have hce : ¬c.toNat < e.toNat := by omega
              have hec : ¬e.toNat < c.toNat := by omega
              simp only [charListLt, if_neg hce, if_neg hec]
              exact ih ds es h1 h2

instance : IsTotal String strLe := by
  refine ⟨fun a b => ?_⟩
  rcases charListLt_total a.data b.data with h | h | h
  · exact Or.inl (Or.inl h)
  · exact Or.inr (Or.inl h)
  · exact Or.inl (Or.inr (string_eq_of_data_eq h))

instance : IsTrans String strLe := by
  refine ⟨fun a b c h1 h2 => ?_⟩
  rcases h1 with h1 | rfl
  · rcases h2 with h2 | rfl
    · exact Or.inl (charListLt_trans _ _ _ h1 h2)
    · exact Or.inl h1
  · exact h2

theorem sorted_sortedDedupStr (l : List String) :
    List.Sorted strLe (sortedDedupStr l) :=
  List.sorted_insertionSort strLe l.dedup

theorem mem_sortedDedupStr {x : String} {l : List String} :
    x ∈ sortedDedupStr l ↔ x ∈ l := by
  rw [sortedDedupStr, List.mem_insertionSort, List.mem_dedup]

/-- C9: in the Ranker's transitive feature propagation over the aggregated
table, the feature of every `bgc_feature` evidence row is added to the
FeatureIDs of every compound holding a `bgc_compound` row with the same
(non-empty) BGCUID; each compound's directly-linked FeatureIDs are preserved;
and every emitted FeatureIDs list is sorted. -/
theorem C9_enrich_propagation (evidence : List EvRow) :
    (∀ a ∈ enrich_with_bgc_feature_links evidence (aggregate_evidence evidence),
      ∀ bf ∈ evidence, ∀ bc ∈ evidence,
        bf.evidenceType = "bgc_feature" → bc.evidenceType = "bgc_compound" →
        bc.bgcuid = bf.bgcuid → bf.bgcuid ≠ "" → bf.featureID ≠ "" →
        bc.compoundID ≠ "" → a.compoundId = bc.compoundID →
        bf.featureID ∈ a.featureIds) ∧
    (∀ a0 ∈ aggregate_evidence evidence,
      ∃ a ∈ enrich_with_bgc_feature_links evidence (aggregate_evidence evidence),
        a.compoundId = a0.compoundId ∧ ∀ f ∈ a0.featureIds, f ∈ a.featureIds) ∧
    (∀ a ∈ enrich_with_bgc_feature_links evidence (aggregate_evidence evidence),
      List.Sorted strLe a.featureIds) := by
  have haggShape : ∀ a ∈ aggregate_evidence evidence,
      ∃ l, a.featureIds = sortedDedupStr l := by
    intro a ha
    simp only [aggregate_evidence, List.mem_map] at ha
    obtain ⟨c, _, rfl⟩ := ha
    exact ⟨_, rfl⟩
  refine ⟨?_, ?_, ?_⟩
  · intro a ha bf hbf bc hbc htf htc hshare hbne hfne hcne hcid
    have hev : ¬evidence = [] := fun he => by
      subst he
      exact absurd hbf (List.not_mem_nil bf)
    by_cases hagg : aggregate_evidence evidence = []
    · rw [enrich_with_bgc_feature_links, if_pos (Or.inr hagg), hagg] at ha
      exact absurd ha (List.not_mem_nil a)
    · rw [enrich_with_bgc_feature_links, if_neg (not_or.mpr ⟨hev, hagg⟩)] at ha
      rw [List.mem_map] at ha
      obtain ⟨a0, ha0, rfl⟩ := ha
      simp only at hcid ⊢
      rw [mem_sortedDedupStr, List.mem_append]
      right
      rw [List.mem_map]
      refine ⟨bf, ?_, rfl⟩
      rw [List.mem_filter]
      constructor
      · rw [List.mem_filter]
        exact ⟨hbf, by simp [htf, hbne, hfne]⟩
      · rw [List.any_eq_true]
        refine ⟨bc, ?_, ?_⟩
        · rw [List.mem_filter]
          refine ⟨hbc, by simp [htc, hcne]; rw [hshare]; exact hbne⟩
        · simp only [Bool.and_eq_true, beq_iff_eq]
          exact ⟨hshare, hcid.symm⟩
  · intro a0 ha0
    by_cases hcond : evidence = [] ∨ aggregate_evidence evidence = []
    · rw [enrich_with_bgc_feature_links, if_pos hcond]
      exact ⟨a0, ha0, rfl, fun f hf => hf⟩
    · rw [enrich_with_bgc_feature_links, if_neg hcond]
      refine ⟨_, List.mem_map.mpr ⟨a0, ha0, rfl⟩, rfl, ?_⟩
      intro f hf
      simp only
      rw [mem_sortedDedupStr, List.mem_append]
      exact Or.inl hf
  · intro a ha
    by_cases hcond : evidence = [] ∨ aggregate_evidence evidence = []
    · rw [enrich_with_bgc_feature_links, if_pos hcond] at ha
      obtain ⟨l, hl⟩ := haggShape a ha
      rw [hl]
      exact sorted_sortedDedupStr l
    · rw [enrich_with_bgc_feature_links, if_neg hcond] at ha
      rw [List.mem_map] at ha
      obtain ⟨a0, _, rfl⟩ := ha
      exact sorted_sortedDedupStr _

/-- The bgc-feature row of the C9 witness run. -/
def exEvBF2 : EvRow := ⟨"B1", "F1", "", "bgc_feature", 1 / 2, "n"⟩

/-- The bgc-compound row of the C9 witness run. -/
def exEvBC2 : EvRow := ⟨"B1", "", "C1", "bgc_compound", 2 / 5, "n"⟩

/-- The enriched output row for compound C1 in the witness run. -/
def exAggC1 : AggRow := ⟨"C1", 2 / 5, 1, ["B1"], ["F1"]⟩

/-- C9 witness: on a two-row evidence table the feature F1 of the bgc_feature
row is propagated into compound C1's FeatureIDs through the shared BGCUID B1. -/
theorem C9_enrich_propagation_witness :
    (exAggC1 ∈ enrich_with_bgc_feature_links [exEvBF2, exEvBC2]
        (aggregate_evidence [exEvBF2, exEvBC2]) ∧
      exEvBF2.evidenceType = "bgc_feature" ∧ exEvBC2.evidenceType = "bgc_compound" ∧
      exEvBC2.bgcuid = exEvBF2.bgcuid ∧ exAggC1.compoundId = exEvBC2.compoundID) ∧
    exEvBF2.featureID ∈ exAggC1.featureIds :=
  ⟨⟨by decide, rfl, rfl, rfl, rfl⟩,
    (C9_enrich_propagation [exEvBF2, exEvBC2]).1 exAggC1 (by decide) exEvBF2
      (by decide) exEvBC2 (by decide) rfl rfl rfl (by decide) (by decide) (by decide) rfl⟩

/-- C10: after any sequence of `union(a,b)` calls over the registered index
set, two successive `find` calls (each with its path compression) return equal
roots exactly when the indices are connected through the equivalence closure of
the union calls; `find`'s path compression changes no index's root (hence no
set membership); and every index's returned representative is its root and lies
in the registered set. -/
theorem C10_unionfind_partition (V : Finset ℕ) (us : List (ℕ × ℕ)) (fuel : ℕ)
    (hus : ∀ ab ∈ us, ab.1 ∈ V ∧ ab.2 ∈ V) (hfuel : V.card ≤ fuel)
    {x y : ℕ} (hx : x ∈ V) (hy : y ∈ V) :
    ((UF.findC fuel (UF.runUnions fuel us id) x).1 =
        (UF.findC fuel (UF.findC fuel (UF.runUnions fuel us id) x).2 y).1 ↔
      Relation.EqvGen (fun a b => (a, b) ∈ us) x y) ∧
    (∀ z r,
      UF.RootOf (UF.findC fuel (UF.findC fuel (UF.runUnions fuel us id) x).2 y).2 z r ↔
        UF.RootOf (UF.runUnions fuel us id) z r) ∧
    UF.RootOf (UF.runUnions fuel us id) x
      (UF.findC fuel (UF.runUnions fuel us id) x).1 ∧
    (UF.findC fuel (UF.runUnions fuel us id) x).1 ∈ V := by
  obtain ⟨hInv, hsame⟩ := UF.runUnions_partition hfuel us hus
  have hchainx : ∃ k, k ≤ fuel ∧
      UF.IsRoot (UF.runUnions fuel us id) ((UF.runUnions fuel us id)^[k] x) := by
    obtain ⟨k, hk, hroot⟩ := UF.reaches_root_bounded hInv hx
    exact ⟨k, by omega, hroot⟩
  obtain ⟨hr1, hInv1, hiff1⟩ :=
    UF.findC_spec fuel (UF.runUnions fuel us id) x hInv hx hchainx
  have hchainy : ∃ k, k ≤ fuel ∧
      UF.IsRoot (UF.findC fuel (UF.runUnions fuel us id) x).2
        ((UF.findC fuel (UF.runUnions fuel us id) x).2^[k] y) := by
    obtain ⟨k, hk, hroot⟩ := UF.reaches_root_bounded hInv1 hy
    exact ⟨k, by omega, hroot⟩
  obtain ⟨hr2', hInv2, hiff2⟩ :=
    UF.findC_spec fuel (UF.findC fuel (UF.runUnions fuel us id) x).2 y hInv1 hy hchainy
  have hr2 : UF.RootOf (UF.runUnions fuel us id) y
      (UF.findC fuel (UF.findC fuel (UF.runUnions fuel us id) x).2 y).1 :=
    (hiff1 _ _).mp hr2'
  refine ⟨?_, fun z r => (hiff2 z r).trans (hiff1 z r), hr1,
    UF.reaches_mem hInv hx hr1.1⟩
  rw [← hsame x y]
  constructor
  · intro he
    exact ⟨_, hr1, he ▸ hr2⟩
  · rintro ⟨r, hxr, hyr⟩
    rw [UF.rootOf_unique hr1 hxr, UF.rootOf_unique hr2 hyr]

/-- C10 witness: the partition statement instantiated on indices {0,1,2} after
the single call `union(0,1)`. -/
theorem C10_unionfind_partition_witness :
    ((∀ ab ∈ [((0 : ℕ), (1 : ℕ))], ab.1 ∈ Finset.range 3 ∧ ab.2 ∈ Finset.range 3) ∧
      (Finset.range 3).card ≤ 3 ∧ (0 : ℕ) ∈ Finset.range 3 ∧ (1 : ℕ) ∈ Finset.range 3) ∧
    ((UF.findC 3 (UF.runUnions 3 [(0, 1)] id) 0).1 =
        (UF.findC 3 (UF.findC 3 (UF.runUnions 3 [(0, 1)] id) 0).2 1).1 ↔
      Relation.EqvGen (fun a b => (a, b) ∈ [((0 : ℕ), (1 : ℕ))]) 0 1) :=
  ⟨⟨by decide, by decide, by decide, by decide⟩,
    (C10_unionfind_partition (Finset.range 3) [(0, 1)] 3 (by decide) (by decide)
      (by decide) (by decide)).1⟩

theorem mem_combPairs_bounds :
    ∀ (l : List ℕ) (a b : ℕ), (a, b) ∈ combPairs l → a ∈ l ∧ b ∈ l := by
  intro l
  induction l with
  | nil => intro a b h; exact absurd h (List.not_mem_nil _)
  | cons x xs ih =>
    intro a b h
    rw [combPairs, List.mem_append] at h
    rcases h with h | h
    · rw [List.mem_map] at h
      obtain ⟨y, hy, he⟩ := h
      obtain ⟨rfl, rfl⟩ := Prod.mk.injEq x y a b ▸ he
      exact ⟨List.mem_cons_self _ _, List.mem_cons_of_mem _ hy⟩
    · obtain ⟨h1, h2⟩ := ih a b h
      exact ⟨List.mem_cons_of_mem _ h1, List.mem_cons_of_mem _ h2⟩

theorem mem_combPairs_append_singleton :
    ∀ (l : List ℕ) (x a b : ℕ),
      ((a, b) ∈ combPairs (l ++ [x])) ↔ ((a, b) ∈ combPairs l ∨ (a ∈ l ∧ b = x)) := by
  intro l
  induction l with
  | nil =>
    intro x a b
    show (a, b) ∈ combPairs [x] ↔ _
    simp [combPairs]
  | cons c l' ih =>
    intro x a b
    rw [List.cons_append]
    show (a, b) ∈ (l' ++ [x]).map (fun y => (c, y)) ++ combPairs (l' ++ [x]) ↔
      ((a, b) ∈ l'.map (fun y => (c, y)) ++ combPairs l' ∨ (a ∈ c :: l' ∧ b = x))
    rw [List.mem_append, List.mem_append, List.mem_map, List.mem_map, ih x a b,
      List.mem_cons]
    constructor
    · rintro (⟨y, hy, he⟩ | h | ⟨h1, rfl⟩)
      · injection he with he1 he2
        subst he1
        subst he2
        rcases List.mem_append.mp hy with hy | hy
        · exact Or.inl (Or.inl ⟨y, hy, rfl⟩)
        · exact Or.inr ⟨Or.inl rfl, List.mem_singleton.mp hy⟩
      · exact Or.inl (Or.inr h)
      · exact Or.inr ⟨Or.inr h1, rfl⟩
    · rintro ((⟨y, hy, he⟩ | h) | ⟨hac, hbx⟩)
      · injection he with he1 he2
        subst he1
        subst he2
        exact Or.inl ⟨y, List.mem_append_left _ hy, rfl⟩
      · exact Or.inr (Or.inl h)
      · subst hbx
        rcases hac with rfl | h1
        · exact Or.inl ⟨b, List.mem_append_right _ (List.mem_singleton_self b), rfl⟩
        · exact Or.inr (Or.inr ⟨h1, rfl⟩)

theorem mem_combPairs_range :
    ∀ (n i j : ℕ), i < j → j < n → (i, j) ∈ combPairs (List.range n) := by
  intro n
  induction n with
  | zero => intro i j _ h; exact absurd h (Nat.not_lt_zero j)
  | succ n ih =>
    intro i j hij hj
    rw [List.range_succ, mem_combPairs_append_singleton]
    rcases Nat.lt_or_ge j n with h | h
    · exact Or.inl (ih i j hij h)
    · have hjn : j = n := by omega
      exact Or.inr ⟨List.mem_range.mpr (by omega), hjn⟩

theorem edgesOf_sub {rs : List BGCRecord} {t : ℚ} :
    ∀ ab ∈ edgesOf rs t,
      ab.1 ∈ Finset.range rs.length ∧ ab.2 ∈ Finset.range rs.length := by
  rintro ⟨a, b⟩ hab
  rw [edgesOf, List.mem_filter] at hab
  obtain ⟨h1, h2⟩ := mem_combPairs_bounds _ a b hab.1
  exact ⟨Finset.mem_range.mpr (List.mem_range.mp h1),
    Finset.mem_range.mpr (List.mem_range.mp h2)⟩

theorem edgesOf_mono {rs : List BGCRecord} {t1 t2 : ℚ} (h : t1 ≤ t2) :
    ∀ ab ∈ edgesOf rs t2, ab ∈ edgesOf rs t1 := by
  intro ab hab
  rw [edgesOf, List.mem_filter] at hab ⊢
  refine ⟨hab.1, ?_⟩
  rw [decide_eq_true_eq] at hab ⊢
  exact le_trans h hab.2

theorem mem_edgesOf {rs : List BGCRecord} {t : ℚ} {i j : ℕ} (hij : i < j)
    (hj : j < rs.length)
    (hov : t ≤ reciprocal_overlap (rs.getD i default) (rs.getD j default)) :
    (i, j) ∈ edgesOf rs t := by
  rw [edgesOf, List.mem_filter]
  exact ⟨mem_combPairs_range rs.length i j hij hj, decide_eq_true hov⟩

/-- The union-find state after the pair loop satisfies the invariant, and its
partition is the equivalence closure of the threshold edges. -/
theorem finalParent_spec (rs : List BGCRecord) (t : ℚ) :
    UF.Inv (Finset.range rs.length) (finalParent rs t) ∧
    ∀ i j, UF.Same (finalParent rs t) i j ↔
      Relation.EqvGen (fun a b => (a, b) ∈ edgesOf rs t) i j :=
  UF.runUnions_partition (by simp) (edgesOf rs t) edgesOf_sub

theorem rootsAux_eq {V : Finset ℕ} {fuel : ℕ} (hfuel : V.card ≤ fuel) :
    ∀ (l : List ℕ) (p : ℕ → ℕ), UF.Inv V p → (∀ i ∈ l, i ∈ V) →
      rootsAux fuel p l = l.map (UF.rootD fuel p) := by
  intro l
  induction l with
  | nil => intro p _ _; rfl
  | cons i is ih =>
    intro p hInv hl
    have hi : i ∈ V := hl i (List.mem_cons_self i is)
    have hchain : ∃ k, k ≤ fuel ∧ UF.IsRoot p (p^[k] i) := by
      obtain ⟨k, hk, hroot⟩ := UF.reaches_root_bounded hInv hi
      exact ⟨k, by omega, hroot⟩
    obtain ⟨hr, hInv1, hiff⟩ := UF.findC_spec fuel p i hInv hi hchain
    show (UF.findC fuel p i).1 :: rootsAux fuel (UF.findC fuel p i).2 is =
      UF.rootD fuel p i :: is.map (UF.rootD fuel p)
    congr 1
    · exact (UF.rootD_eq_of_rootOf hInv hfuel hr).symm
    · rw [ih (UF.findC fuel p i).2 hInv1 fun j hj => hl j (List.mem_cons_of_mem i hj)]
      refine List.map_congr_left fun j hj => ?_
      have h1 := UF.rootD_spec hInv1 hfuel j
      have h2 : UF.RootOf p j (UF.rootD fuel (UF.findC fuel p i).2 j) := (hiff _ _).mp h1
      exact (UF.rootD_eq_of_rootOf hInv hfuel h2).symm

theorem rootsAux_range_eq (rs : List BGCRecord) (t : ℚ) :
    rootsAux rs.length (finalParent rs t) (List.range rs.length) =
      (List.range rs.length).map (UF.rootD rs.length (finalParent rs t)) :=
  @rootsAux_eq (Finset.range rs.length) rs.length (by simp) (List.range rs.length)
    (finalParent rs t) (finalParent_spec rs t).1
    (fun a ha => Finset.mem_range.mpr (List.mem_range.mp ha))

/-- The groups layer of `merge_overlaps` expressed through the canonical root
function. -/
theorem mem_group_iff (rs : List BGCRecord) (t : ℚ) (r i : ℕ) :
    (i ∈ ((List.range rs.length).zip
        (rootsAux rs.length (finalParent rs t) (List.range rs.length))).filterMap
          fun ir => if ir.2 = r then some ir.1 else none) ↔
      (i < rs.length ∧ UF.rootD rs.length (finalParent rs t) i = r) := by
  rw [rootsAux_range_eq]
  have hzip := List.zip_map' id (UF.rootD rs.length (finalParent rs t))
    (List.range rs.length)
  rw [List.map_id] at hzip
  simp only [id_eq] at hzip
  rw [hzip, List.filterMap_map, List.mem_filterMap]
  constructor
  · rintro ⟨a, ha, he⟩
    by_cases hr : UF.rootD rs.length (finalParent rs t) a = r
    · rw [Function.comp_apply, if_pos hr] at he
      obtain rfl := Option.some.inj he
      exact ⟨List.mem_range.mp ha, hr⟩
    · rw [Function.comp_apply, if_neg hr] at he
      exact absurd he (by simp)
  · rintro ⟨hi, hr⟩
    exact ⟨i, List.mem_range.mpr hi, by rw [Function.comp_apply, if_pos hr]⟩

theorem mem_sampleGroups_iff (rs : List BGCRecord) (t : ℚ) {i j : ℕ}
    (hi : i < rs.length) (hj : j < rs.length) :
    (∃ g ∈ sampleGroups rs t, i ∈ g ∧ j ∈ g) ↔
      UF.rootD rs.length (finalParent rs t) i =
        UF.rootD rs.length (finalParent rs t) j := by
  constructor
  · rintro ⟨g, hg, hig, hjg⟩
    simp only [sampleGroups, List.mem_map] at hg
    obtain ⟨r, _, rfl⟩ := hg
    obtain ⟨_, hri⟩ := (mem_group_iff rs t r i).mp hig
    obtain ⟨_, hrj⟩ := (mem_group_iff rs t r j).mp hjg
    rw [hri, hrj]
  · intro he
    refine ⟨((List.range rs.length).zip
        (rootsAux rs.length (finalParent rs t) (List.range rs.length))).filterMap
          fun ir => if ir.2 = UF.rootD rs.length (finalParent rs t) i then some ir.1
            else none, ?_, ?_, ?_⟩
    · simp only [sampleGroups, List.mem_map]
      refine ⟨UF.rootD rs.length (finalParent rs t) i, ?_, rfl⟩
      rw [sortedDedupNat, List.mem_insertionSort, List.mem_dedup, rootsAux_range_eq,
        List.mem_map]
      exact ⟨i, List.mem_range.mpr hi, rfl⟩
    · exact (mem_group_iff rs t _ i).mpr ⟨hi, rfl⟩
    · exact (mem_group_iff rs t _ j).mpr ⟨hj, he.symm⟩

theorem sampleGroups_nonempty (rs : List BGCRecord) (t : ℚ) :
    ∀ g ∈ sampleGroups rs t, ∃ i, i ∈ g ∧ i < rs.length := by
  intro g hg
  simp only [sampleGroups, List.mem_map] at hg
  obtain ⟨r, hr, rfl⟩ := hg
  rw [sortedDedupNat, List.mem_insertionSort, List.mem_dedup, rootsAux_range_eq,
    List.mem_map] at hr
  obtain ⟨i, hi, hri⟩ := hr
  exact ⟨i, (mem_group_iff rs t r i).mpr ⟨List.mem_range.mp hi, hri⟩,
    List.mem_range.mp hi⟩

theorem assignUids_mem :
    ∀ (l : List URow) (counts : String → ℕ) {r : URow}, r ∈ l →
      ∃ u ∈ assignUids counts l, u.row = r := by
  intro l
  induction l with
  | nil => intro counts r h; exact absurd h (List.not_mem_nil r)
  | cons a l' ih =>
    intro counts r h
    rcases List.mem_cons.mp h with rfl | h
    · exact ⟨⟨mkUid r.sampleId (counts r.sampleId + 1), r⟩,
        List.mem_cons_self _ _, rfl⟩
    · obtain ⟨u, hu, he⟩ := ih _ h
      exact ⟨u, List.mem_cons_of_mem _ hu, he⟩

/-- C4 (amended): within a sample, any two records whose reciprocal overlap
reaches the threshold land in the same group of the Unifier, and that group is
emitted as a single unified row carrying both records' BGCIDs; conversely two
records share a group exactly when they are connected by a chain of
at-threshold overlaps — so a pair below the threshold may still share a BGCUID
through intermediates. -/
theorem C4_overlap_grouping (rs : List BGCRecord) (t : ℚ) :
    (∀ i j, i < j → j < rs.length →
      t ≤ reciprocal_overlap (rs.getD i default) (rs.getD j default) →
      ∃ g ∈ sampleGroups rs t, i ∈ g ∧ j ∈ g) ∧
    (∀ i j, i < rs.length → j < rs.length →
      ((∃ g ∈ sampleGroups rs t, i ∈ g ∧ j ∈ g) ↔
        Relation.EqvGen (fun a b => (a, b) ∈ edgesOf rs t) i j)) ∧
    (∀ df s, s ∈ sampleKeys df → sampleRows df s = rs → 2 ≤ rs.length →
      ∀ g ∈ sampleGroups rs t,
        ∃ u ∈ merge_overlaps df t,
          u.row.memberBGCIDs = g.map fun k => (rs.getD k default).bgcId) := by
  obtain ⟨hInv, hsame⟩ := finalParent_spec rs t
  have hfuel : (Finset.range rs.length).card ≤ rs.length := by simp
  have hiff : ∀ i j, i < rs.length → j < rs.length →
      ((∃ g ∈ sampleGroups rs t, i ∈ g ∧ j ∈ g) ↔
        Relation.EqvGen (fun a b => (a, b) ∈ edgesOf rs t) i j) := by
    intro i j hi hj
    rw [mem_sampleGroups_iff rs t hi hj, ← UF.same_iff_rootD hInv hfuel, hsame i j]
  refine ⟨?_, hiff, ?_⟩
  · intro i j hij hj hov
    exact (hiff i j (lt_trans hij hj) hj).mpr
      (Relation.EqvGen.rel i j (mem_edgesOf hij hj hov))
  · intro df s hs hrows hlen g hg
    have hrow : unifyGroup s (g.map fun k => rs.getD k default) ∈ preRows df t := by
      rw [preRows, List.mem_flatMap]
      refine ⟨s, hs, ?_⟩
      rw [hrows]
      rw [if_neg (by omega)]
      exact List.mem_map.mpr ⟨g, hg, rfl⟩
    obtain ⟨u, hu, he⟩ := assignUids_mem _ (fun _ => 0)
      (List.mem_insertionSort urowLe |>.mpr hrow)
    refine ⟨u, hu, ?_⟩
    rw [he]
    show (g.map fun k => rs.getD k default).map (·.bgcId) = _
    rw [List.map_map]
    rfl

/-- Chained overlapping intervals for the C4 counterexample. -/
def chA : BGCRecord := ⟨"S1", 0, 100, none, "t1", "NRPS", [], [], "A"⟩

/-- The middle interval, overlapping both neighbours at exactly 0.5. -/
def chB : BGCRecord := ⟨"S1", 50, 150, none, "t2", "NRPS", [], [], "B"⟩

/-- The far interval, not overlapping the first at all. -/
def chC : BGCRecord := ⟨"S1", 100, 200, none, "t3", "NRPS", [], [], "C"⟩

/-- C4 counterexample: records A=[0,100] and C=[100,200] of the same sample
have reciprocal overlap 0 < 0.5, yet through B=[50,150] they end up in the same
unified BGCUID — below-threshold pairs do not necessarily remain separate. -/
theorem C4_below_threshold_not_separate :
    reciprocal_overlap chA chC < 1 / 2 ∧
    chA.sampleId = chC.sampleId ∧
    ∃ u ∈ merge_overlaps [chA, chB, chC] (1 / 2),
      chA.bgcId ∈ u.row.memberBGCIDs ∧ chC.bgcId ∈ u.row.memberBGCIDs := by
  refine ⟨by decide, rfl, by decide⟩

/-- C4 witness: the at-threshold direction instantiated on the two-record
sample [0,100]/[10,110] at threshold 0.5. -/
theorem C4_overlap_grouping_witness :
    ((0 : ℕ) < 1 ∧ 1 < ([exRec1, exRec2] : List BGCRecord).length ∧
      (1 / 2 : ℚ) ≤ reciprocal_overlap (([exRec1, exRec2] : List BGCRecord).getD 0 default)
        (([exRec1, exRec2] : List BGCRecord).getD 1 default)) ∧
    ∃ g ∈ sampleGroups [exRec1, exRec2] (1 / 2), 0 ∈ g ∧ 1 ∈ g :=
  ⟨⟨by decide, by decide, by decide⟩,
    (C4_overlap_grouping [exRec1, exRec2] (1 / 2)).1 0 1 (by decide) (by decide)
      (by decide)⟩

theorem assignUids_length :
    ∀ (counts : String → ℕ) (l : List URow), (assignUids counts l).length = l.length := by
  intro counts l
  induction l generalizing counts with
  | nil => rfl
  | cons a l' ih => simp [assignUids, ih]

theorem merge_overlaps_length (df : List BGCRecord) (t : ℚ) :
    (merge_overlaps df t).length = (preRows df t).length := by
  rw [merge_overlaps, assignUids_length, List.length_insertionSort]

theorem toFinset_map_nat (l : List ℕ) (f : ℕ → ℕ) :
    (l.map f).toFinset = Finset.image f l.toFinset := by
  ext x
  simp

theorem toFinset_range_nat (n : ℕ) : (List.range n).toFinset = Finset.range n := by
  ext x
  simp

theorem sampleGroups_length (rs : List BGCRecord) (t : ℚ) :
    (sampleGroups rs t).length =
      (Finset.image (UF.rootD rs.length (finalParent rs t)) (Finset.range rs.length)).card := by
  simp only [sampleGroups, List.length_map]
  rw [sortedDedupNat, List.length_insertionSort, ← List.card_toFinset,
    rootsAux_range_eq, toFinset_map_nat, toFinset_range_nat]

theorem rootD_comp (rs : List BGCRecord) {t1 t2 : ℚ} (h : t1 ≤ t2) :
    ∀ i ∈ Finset.range rs.length,
      UF.rootD rs.length (finalParent rs t1)
          (UF.rootD rs.length (finalParent rs t2) i) =
        UF.rootD rs.length (finalParent rs t1) i := by
  intro i _
  obtain ⟨hInv1, hsame1⟩ := finalParent_spec rs t1
  obtain ⟨hInv2, hsame2⟩ := finalParent_spec rs t2
  have hfuel : (Finset.range rs.length).card ≤ rs.length := by simp
  have hsame : UF.Same (finalParent rs t2) i
      (UF.rootD rs.length (finalParent rs t2) i) :=
    UF.same_of_rootOf (UF.rootD_spec hInv2 hfuel i)
  have hgen1 : Relation.EqvGen (fun a b => (a, b) ∈ edgesOf rs t1) i
      (UF.rootD rs.length (finalParent rs t2) i) :=
    Relation.EqvGen.mono (fun a b hab => edgesOf_mono h (a, b) hab)
      ((hsame2 _ _).mp hsame)
  exact ((UF.same_iff_rootD hInv1 hfuel _ _).mp ((hsame1 _ _).mpr hgen1)).symm

theorem sampleGroups_mono (rs : List BGCRecord) {t1 t2 : ℚ} (h : t1 ≤ t2) :
    (sampleGroups rs t1).length ≤ (sampleGroups rs t2).length := by
  rw [sampleGroups_length, sampleGroups_length]
  have himg : Finset.image (UF.rootD rs.length (finalParent rs t1))
      (Finset.range rs.length) =
      Finset.image (UF.rootD rs.length (finalParent rs t1))
        (Finset.image (UF.rootD rs.length (finalParent rs t2))
          (Finset.range rs.length)) := by
    rw [Finset.image_image]
    refine Finset.image_congr fun i hi => ?_
    show UF.rootD rs.length (finalParent rs t1) i =
      UF.rootD rs.length (finalParent rs t1) (UF.rootD rs.length (finalParent rs t2) i)
    exact (rootD_comp rs h i hi).symm
  rw [himg]
  exact Finset.card_image_le

theorem preRows_length_mono (df : List BGCRecord) {t1 t2 : ℚ} (h : t1 ≤ t2) :
    (preRows df t1).length ≤ (preRows df t2).length := by
  rw [preRows, preRows, List.length_flatMap, List.length_flatMap]
  apply List.sum_le_sum
  intro s _
  simp only [Function.comp_apply]
  by_cases hlen : (sampleRows df s).length = 1
  · rw [if_pos hlen, if_pos hlen]
  · rw [if_neg hlen, if_neg hlen]
    simp only [List.length_singleton, List.length_map]
    exact sampleGroups_mono _ h

/-- C5: Unifier merging is threshold-monotonic — for a fixed input table,
raising the overlap threshold never decreases the number of unified rows. -/
theorem C5_threshold_monotone (df : List BGCRecord) (t1 t2 : ℚ) (h : t1 ≤ t2) :
    (merge_overlaps df t1).length ≤ (merge_overlaps df t2).length := by
  rw [merge_overlaps_length, merge_overlaps_length]
  exact preRows_length_mono df h

/-- The spec's literal monotonicity example, interval [60,160]. -/
def exRec4 : BGCRecord := ⟨"S1", 60, 160, some (7 / 10), "prism", "NRPS", [], [], "S1_prism_1"⟩

/-- C5 witness: on the spec's literal example ([0,100]/[60,160], overlap 0.4)
the pair merges at threshold 0.4 into one row and separates at 0.6 into two,
and the general theorem applies at 0.4 ≤ 0.6. -/
theorem C5_threshold_monotone_witness :
    ((2 / 5 : ℚ) ≤ 3 / 5 ∧
      (merge_overlaps [exRec1, exRec4] (2 / 5)).length = 1 ∧
      (merge_overlaps [exRec1, exRec4] (3 / 5)).length = 2) ∧
    (merge_overlaps [exRec1, exRec4] (2 / 5)).length ≤
      (merge_overlaps [exRec1, exRec4] (3 / 5)).length :=
  ⟨⟨by norm_num, by decide, by decide⟩,
    C5_threshold_monotone [exRec1, exRec4] (2 / 5) (3 / 5) (by norm_num)⟩

theorem foldl_min_mem : ∀ (xs : List ℚ) (x : ℚ), xs.foldl min x ∈ x :: xs := by
  intro xs
  induction xs with
  | nil => intro x; exact List.mem_singleton_self x
  | cons y ys ih =>
    intro x
    show ys.foldl min (min x y) ∈ x :: y :: ys
    rcases List.mem_cons.mp (ih (min x y)) with h | h
    · rcases min_choice x y with hc | hc
      · rw [h, hc]; exact List.mem_cons_self _ _
      · rw [h, hc]; exact List.mem_cons_of_mem _ (List.mem_cons_self _ _)
    · exact List.mem_cons_of_mem _ (List.mem_cons_of_mem _ h)

theorem foldl_min_le_init : ∀ (ys : List ℚ) (z : ℚ), ys.foldl min z ≤ z := by
  intro ys
  induction ys with
  | nil => intro z; exact le_rfl
  | cons y ys ih =>
    intro z
    exact le_trans (ih (min z y)) (min_le_left z y)

theorem foldl_min_le : ∀ (xs : List ℚ) (x a : ℚ), a ∈ x :: xs → xs.foldl min x ≤ a := by
  intro xs
  induction xs with
  | nil =>
    intro x a ha
    rw [List.mem_singleton] at ha
    exact ha ▸ le_rfl
  | cons y ys ih =>
    intro x a ha
    show ys.foldl min (min x y) ≤ a
    rcases List.mem_cons.mp ha with rfl | ha
    · exact le_trans (foldl_min_le_init ys (min a y)) (min_le_left a y)
    · rcases List.mem_cons.mp ha with rfl | ha
      · exact le_trans (foldl_min_le_init ys (min x a)) (min_le_right x a)
      · exact ih (min x y) a (List.mem_cons_of_mem _ ha)

theorem foldl_max_mem : ∀ (xs : List ℚ) (x : ℚ), xs.foldl max x ∈ x :: xs := by
  intro xs
  induction xs with
  | nil => intro x; exact List.mem_singleton_self x
  | cons y ys ih =>
    intro x
    show ys.foldl max (max x y) ∈ x :: y :: ys
    rcases List.mem_cons.mp (ih (max x y)) with h | h
    · rcases max_choice x y with hc | hc
      · rw [h, hc]; exact List.mem_cons_self _ _
      · rw [h, hc]; exact List.mem_cons_of_mem _ (List.mem_cons_self _ _)
    · exact List.mem_cons_of_mem _ (List.mem_cons_of_mem _ h)

theorem foldl_max_init_le : ∀ (ys : List ℚ) (z : ℚ), z ≤ ys.foldl max z := by
  intro ys
  induction ys with
  | nil => intro z; exact le_rfl
  | cons y ys ih =>
    intro z
    exact le_trans (le_max_left z y) (ih (max z y))

theorem foldl_le_max : ∀ (xs : List ℚ) (x a : ℚ), a ∈ x :: xs → a ≤ xs.foldl max x := by
  intro xs
  induction xs with
  | nil =>
    intro x a ha
    rw [List.mem_singleton] at ha
    exact ha ▸ le_rfl
  | cons y ys ih =>
    intro x a ha
    show a ≤ ys.foldl max (max x y)
    rcases List.mem_cons.mp ha with rfl | ha
    · exact le_trans (le_max_left a y) (foldl_max_init_le ys (max a y))
    · rcases List.mem_cons.mp ha with rfl | ha
      · exact le_trans (le_max_right x a) (foldl_max_init_le ys (max x a))
      · exact ih (max x y) a (List.mem_cons_of_mem _ ha)

theorem listMin_mem : ∀ {l : List ℚ}, l ≠ [] → listMin l ∈ l
  | [], h => absurd rfl h
  | x :: xs, _ => foldl_min_mem xs x

theorem listMin_le : ∀ {l : List ℚ}, ∀ a ∈ l, listMin l ≤ a
  | [], a, ha => absurd ha (List.not_mem_nil a)
  | x :: xs, a, ha => foldl_min_le xs x a ha

theorem listMax_mem : ∀ {l : List ℚ}, l ≠ [] → listMax l ∈ l
  | [], h => absurd rfl h
  | x :: xs, _ => foldl_max_mem xs x

theorem le_listMax : ∀ {l : List ℚ}, ∀ a ∈ l, a ≤ listMax l
  | [], a, ha => absurd ha (List.not_mem_nil a)
  | x :: xs, a, ha => foldl_le_max xs x a ha

theorem assignUids_mem_inv :
    ∀ (l : List URow) (counts : String → ℕ) {u : UnifiedRow},
      u ∈ assignUids counts l → u.row ∈ l := by
  intro l
  induction l with
  | nil => intro counts u h; exact absurd h (List.not_mem_nil u)
  | cons a l' ih =>
    intro counts u h
    rcases List.mem_cons.mp h with rfl | h
    · exact List.mem_cons_self _ _
    · exact List.mem_cons_of_mem _ (ih _ h)

theorem sampleGroups_mem_lt (rs : List BGCRecord) (t : ℚ) :
    ∀ g ∈ sampleGroups rs t, ∀ k ∈ g, k < rs.length := by
  intro g hg k hk
  simp only [sampleGroups, List.mem_map] at hg
  obtain ⟨r, _, rfl⟩ := hg
  exact ((mem_group_iff rs t r k).mp hk).1

theorem sampleRows_sub (df : List BGCRecord) (s : String) :
    ∀ r ∈ sampleRows df s, r ∈ df := fun r hr => (List.mem_filter.mp hr).1

/-- C6: every unified row of `merge_overlaps` comes from a non-empty list of
member input records (its MemberBGCIDs), its Start is the minimum of the
members' Starts, its End the maximum of their Ends, and its Score the
arithmetic mean of the members' non-missing Scores (missing when all are). -/
theorem C6_unified_aggregates (df : List BGCRecord) (t : ℚ) :
    ∀ u ∈ merge_overlaps df t, ∃ ms : List BGCRecord, ms ≠ [] ∧
      (∀ r ∈ ms, r ∈ df) ∧
      u.row.memberBGCIDs = ms.map (·.bgcId) ∧
      (u.row.start ∈ ms.map (·.start) ∧ ∀ r ∈ ms, u.row.start ≤ r.start) ∧
      (u.row.stop ∈ ms.map (·.stop) ∧ ∀ r ∈ ms, r.stop ≤ u.row.stop) ∧
      (ms.filterMap (·.score) = [] → u.row.score = none) ∧
      (ms.filterMap (·.score) ≠ [] → u.row.score =
        some ((ms.filterMap (·.score)).sum / (ms.filterMap (·.score)).length)) := by
  intro u hu
  have hrow : u.row ∈ preRows df t :=
    (List.mem_insertionSort urowLe).mp (assignUids_mem_inv _ _ hu)
  rw [preRows, List.mem_flatMap] at hrow
  obtain ⟨s, hs, hin⟩ := hrow
  by_cases hlen : (sampleRows df s).length = 1
  · rw [if_pos hlen, List.mem_singleton] at hin
    set r0 := (sampleRows df s).getD 0 default with hr0
    have hmem : r0 ∈ sampleRows df s := by
      rw [hr0, List.getD_eq_getElem _ _ (by omega)]
      exact List.getElem_mem _
    refine ⟨[r0], by simp, fun r hr => ?_, ?_, ?_, ?_, ?_, ?_⟩
    · rw [List.mem_singleton] at hr
      exact hr ▸ sampleRows_sub df s r0 hmem
    · rw [hin]; rfl
    · rw [hin]
      refine ⟨List.mem_singleton_self _, fun r hr => ?_⟩
      rw [List.mem_singleton] at hr
      rw [hr]
      exact le_rfl
    · rw [hin]
      refine ⟨List.mem_singleton_self _, fun r hr => ?_⟩
      rw [List.mem_singleton] at hr
      rw [hr]
      exact le_rfl
    · intro hnone
      rw [hin]
      show r0.score = none
      cases hsc : r0.score with
      | none => rfl
      | some v => simp [hsc] at hnone
    · intro hsome
      rw [hin]
      show r0.score = _
      cases hsc : r0.score with
      | none =>
        have hfm : ([r0].filterMap fun r => r.score) = [] := by simp [hsc]
        exact absurd hfm hsome
      | some v =>
        have hfm : ([r0].filterMap fun r => r.score) = [v] := by simp [hsc]
        rw [hfm]
        simp
  · rw [if_neg hlen, List.mem_map] at hin
    obtain ⟨g, hg, heq⟩ := hin
    set rs := sampleRows df s with hrs
    obtain ⟨i0, hi0, _⟩ := sampleGroups_nonempty rs t g hg
    have hgne : g ≠ [] := by
      intro hc
      rw [hc] at hi0
      exact List.not_mem_nil i0 hi0
    have hne : g.map (fun k => rs.getD k default) ≠ [] := by
      intro hc
      rw [List.map_eq_nil] at hc
      exact hgne hc
    refine ⟨g.map fun k => rs.getD k default, hne, fun r hr => ?_, ?_, ?_, ?_, ?_, ?_⟩
    · rw [List.mem_map] at hr
      obtain ⟨k, hk, rfl⟩ := hr
      have hklt := sampleGroups_mem_lt rs t g hg k hk
      rw [List.getD_eq_getElem _ _ hklt]
      exact sampleRows_sub df s _ (List.getElem_mem _)
    · rw [← heq]; rfl
    · rw [← heq]
      have hmapne : ((g.map fun k => rs.getD k default).map (·.start)) ≠ [] := by
        intro hc
        rw [List.map_eq_nil] at hc
        exact hne hc
      exact ⟨listMin_mem hmapne, fun r hr => listMin_le _ (List.mem_map_of_mem _ hr)⟩
    · rw [← heq]
      have hmapne : ((g.map fun k => rs.getD k default).map (·.stop)) ≠ [] := by
        intro hc
        rw [List.map_eq_nil] at hc
        exact hne hc
      exact ⟨listMax_mem hmapne, fun r hr => le_listMax _ (List.mem_map_of_mem _ hr)⟩
    · intro hnone
      rw [← heq]
      show meanOpt _ = none
      rw [meanOpt, if_pos hnone]
    · intro hsome
      rw [← heq]
      show meanOpt _ = _
      rw [meanOpt, if_neg hsome]

/-- The unified row produced by the two-record witness run. -/
def exUnified : UnifiedRow :=
  ⟨"S1_BGCUID_001",
    ⟨"S1", "antismash|deepbgc", "NRPS", 0, 110, some (809 / 20), ["a", "b"], ["X"],
      ["S1_antismash_1", "S1_deepbgc_1"]⟩⟩

/-- C6 witness: the aggregate property instantiated on the unified row of the
concrete [0,100]/[10,110] merge (Start 0 = min, End 110 = max, Score
(80 + 0.9)/2 = 809/20). -/
theorem C6_unified_aggregates_witness :
    exUnified ∈ merge_overlaps [exRec1, exRec2] (1 / 2) ∧
    ∃ ms : List BGCRecord, ms ≠ [] ∧
      (∀ r ∈ ms, r ∈ [exRec1, exRec2]) ∧
      exUnified.row.memberBGCIDs = ms.map (·.bgcId) ∧
      (exUnified.row.start ∈ ms.map (·.start) ∧ ∀ r ∈ ms, exUnified.row.start ≤ r.start) ∧
      (exUnified.row.stop ∈ ms.map (·.stop) ∧ ∀ r ∈ ms, r.stop ≤ exUnified.row.stop) ∧
      (ms.filterMap (·.score) = [] → exUnified.row.score = none) ∧
      (ms.filterMap (·.score) ≠ [] → exUnified.row.score =
        some ((ms.filterMap (·.score)).sum / (ms.filterMap (·.score)).length)) :=
  ⟨by decide, C6_unified_aggregates [exRec1, exRec2] (1 / 2) exUnified (by decide)⟩

end BiotechSpec
